import Mathlib

/-!
Verification of the `test-selector` repository against its specification.

The development shallowly embeds the TypeScript sources:
  * `src/git.ts`   — `GitService.parseHunkHeader`, `GitService.getChangedFiles`
  * `src/analyzer.ts` and the extended analyzer draft — `Analyzer.hasIntersection`,
    `Analyzer.findRemovedTests`, `Analyzer.findDirectImporters`,
    `Analyzer.findDependentTestFiles`, `Analyzer.analyzeTestFile`,
    `Analyzer.analyzeDependentTestFile`, `Analyzer.analyze`
  * `src/index.ts` — `escapeRegExp`, `toJsonOutput`

Strings are processed as `List Char` (the `data` of a `String`), JavaScript
`Set`s become insertion-ordered duplicate-free lists, JavaScript `Map`s become
update functions `String → Option _`, and the filesystem / git / ts-morph
environment becomes explicit function-valued inputs.
-/

set_option maxRecDepth 8000

namespace TestSelector

/-- Decides whether a character is an ASCII digit, i.e. is matched by the
digit class used in the hunk-header regular expression of `src/git.ts`. -/
def isDigitChar (c : Char) : Bool :=
  decide (48 ≤ c.toNat) && decide (c.toNat ≤ 57)

/-- Greedy match of a (possibly empty) run of digits at the front of the
input, returning the run and the remainder.  This is the behaviour of a
greedy `\d+`/`\d*` at a fixed position. -/
def takeDigits : List Char → List Char × List Char
  | [] => ([], [])
  | c :: cs =>
    if isDigitChar c then ((c :: (takeDigits cs).1), (takeDigits cs).2)
    else ([], c :: cs)

/-- Consume an exact literal at the front of the input, returning the rest,
or `none` if the input does not start with the literal. -/
def dropLit : List Char → List Char → Option (List Char)
  | [], cs => some cs
  | _ :: _, [] => none
  | p :: ps, c :: cs => if c = p then dropLit ps cs else none

/-- Numeric value of a digit character, as used by `parseInt` on an
all-digit string. -/
def charVal (c : Char) : Nat := c.toNat - 48

/-- Decimal value of an all-digit character run; this is what JavaScript
`parseInt(s, 10)` computes on the digit-only capture groups produced by the
hunk-header regular expression. -/
def parseDigits (ds : List Char) : Nat :=
  ds.foldl (fun a c => 10 * a + charVal c) 0

/-- The literal `@@ -` opening a hunk header. -/
def hunkHdrLit : List Char := [ '@', '@', ' ', '-' ]

/-- The literal ` +` separating the old range from the new range. -/
def hunkMidLit : List Char := [ ' ', '+' ]

/-- The literal ` @@` closing the matched part of a hunk header. -/
def hunkEndLit : List Char := [ ' ', '@', '@' ]

/-- Optional `,digits` group after the old range start (the group
`(?:,\d+)?` of the regex): if the input starts with a comma followed by at
least one digit, the group is consumed, otherwise the input is unchanged.
Since digit runs are maximal and the following literal starts with a
space, no backtracking into this group is ever possible, so this
deterministic reading agrees with the backtracking regex on all inputs. -/
def chompOptCommaDigits (cs : List Char) : List Char :=
  match cs with
  | [] => cs
  | c :: rest =>
    if c = ',' then (if (takeDigits rest).1 = [] then cs else (takeDigits rest).2)
    else cs

/-- Optional capturing `,digits` group after the new range start (the group
`(?:,(\d+))?` of the regex), returning the captured digits (if the group
participated) and the remainder. -/
def grabOptCommaDigits (cs : List Char) : Option (List Char) × List Char :=
  match cs with
  | [] => (none, cs)
  | c :: rest =>
    if c = ',' then
      (if (takeDigits rest).1 = [] then (none, cs)
       else (some ((takeDigits rest).1), (takeDigits rest).2))
    else (none, cs)

/-- Attempt to match the regular expression
`@@ -\d+(?:,\d+)? \+(\d+)(?:,(\d+))? @@` of `GitService.parseHunkHeader`
at the start of the input, returning the two capture groups on success.
All quantifiers in the pattern are followed by characters outside their
character classes, so the greedy deterministic reading used here agrees
with JavaScript's backtracking semantics on every input. -/
def matchHunkAt (cs : List Char) : Option (List Char × Option (List Char)) :=
  match dropLit hunkHdrLit cs with
  | none => none
  | some cs1 =>
    if (takeDigits cs1).1 = [] then none
    else
      match dropLit hunkMidLit (chompOptCommaDigits ((takeDigits cs1).2)) with
      | none => none
      | some cs4 =>
        if (takeDigits cs4).1 = [] then none
        else
          match dropLit hunkEndLit ((grabOptCommaDigits ((takeDigits cs4).2)).2) with
          | none => none
          | some _ => some ((takeDigits cs4).1, (grabOptCommaDigits ((takeDigits cs4).2)).1)

/-- Search for the leftmost match of the hunk-header pattern anywhere in the
input, which is what `String.prototype.match` does with a non-global,
unanchored regular expression. -/
def findHunkMatch : List Char → Option (List Char × Option (List Char))
  | [] => matchHunkAt []
  | c :: rest =>
    match matchHunkAt (c :: rest) with
    | some r => some r
    | none => findHunkMatch rest

/-- Shallow embedding of `GitService.parseHunkHeader` (src/git.ts, lines
109–127) on the character list of the header string: match the regular
expression, read `startLine` from capture 1, read `lineCount` from capture 2
defaulting to `1` when the group is absent, and emit
`startLine + i` for `i < lineCount`. -/
def parseHunkHeaderChars (cs : List Char) : List Nat :=
  match findHunkMatch cs with
  | none => []
  | some (g1, g2) =>
    (List.range (match g2 with
      | some ds => parseDigits ds
      | none => 1)).map (fun i => parseDigits g1 + i)

/-- Shallow embedding of `GitService.parseHunkHeader` on strings. -/
def parseHunkHeader (s : String) : List Nat := parseHunkHeaderChars s.data

/-- Character for a decimal digit value below ten. -/
def digitToChar : Nat → Char
  | 0 => '0'
  | 1 => '1'
  | 2 => '2'
  | 3 => '3'
  | 4 => '4'
  | 5 => '5'
  | 6 => '6'
  | 7 => '7'
  | 8 => '8'
  | _ => '9'

/-- Standard decimal rendering of a natural number, with no sign and no
leading zeros (and `0` rendered as `"0"`); this is the form in which git
writes the numbers of a hunk header. -/
def renderNat (n : Nat) : List Char :=
  if n = 0 then [ '0' ] else ((Nat.digits 10 n).map digitToChar).reverse

/-- Rendering of an optional `,count` part of a hunk header range. -/
def renderOptCount : Option Nat → List Char
  | none => []
  | some k => ',' :: renderNat k

/-- Character list of a well-formed hunk header
`@@ -oldStart[,oldCount] +newStart[,newCount] @@`. -/
def hunkHeaderChars (os : Nat) (oc : Option Nat) (ns : Nat) (nc : Option Nat) : List Char :=
  hunkHdrLit ++ (renderNat os ++ (renderOptCount oc ++
    (hunkMidLit ++ (renderNat ns ++ (renderOptCount nc ++ hunkEndLit)))))

/-- A well-formed hunk header string
`@@ -oldStart[,oldCount] +newStart[,newCount] @@`, the input format
described by the specification for `parseHunkHeader`. -/
def renderHunkHeader (os : Nat) (oc : Option Nat) (ns : Nat) (nc : Option Nat) : String :=
  String.mk (hunkHeaderChars os oc ns nc)

theorem dropLit_append (p r : List Char) : dropLit p (p ++ r) = some r := by
  induction p with
  | nil => rfl
  | cons c cs ih => simp [dropLit, ih]

theorem takeDigits_append (ds r : List Char) (hds : ∀ c ∈ ds, isDigitChar c = true)
    (hr : ∀ c, r.head? = some c → isDigitChar c = false) :
    takeDigits (ds ++ r) = (ds, r) := by
  induction ds with
  | nil =>
    cases r with
    | nil => rfl
    | cons c rest =>
      have : isDigitChar c = false := hr c rfl
      simp [takeDigits, this]
  | cons c cs ih =>
    have hc : isDigitChar c = true := hds c (List.mem_cons_self _ _)
    have ih' := ih (fun x hx => hds x (List.mem_cons_of_mem _ hx))
    simp [takeDigits, hc, ih']

theorem digitToChar_toNat {d : Nat} (h : d < 10) : (digitToChar d).toNat = 48 + d := by
  interval_cases d <;> rfl

theorem isDigitChar_digitToChar {d : Nat} (h : d < 10) :
    isDigitChar (digitToChar d) = true := by
  simp [isDigitChar, digitToChar_toNat h]
  omega

theorem renderNat_all_digits (n : Nat) : ∀ c ∈ renderNat n, isDigitChar c = true := by
  intro c hc
  unfold renderNat at hc
  by_cases h0 : n = 0
  · simp [h0] at hc
    simp [hc]
    rfl
  · simp [h0] at hc
    obtain ⟨d, hd, rfl⟩ := hc
    exact isDigitChar_digitToChar (Nat.digits_lt_base (by norm_num) hd)

theorem renderNat_ne_nil (n : Nat) : renderNat n ≠ [] := by
  unfold renderNat
  by_cases h0 : n = 0
  · simp [h0]
  · simp [h0, Nat.digits_ne_nil_iff_ne_zero.mpr h0]

theorem parseDigits_rev_map (l : List Nat) (h : ∀ d ∈ l, d < 10) :
    parseDigits ((l.map digitToChar).reverse) = Nat.ofDigits 10 l := by
  induction l with
  | nil => rfl
  | cons d t ih =>
    have hd : d < 10 := h d (List.mem_cons_self _ _)
    have ih' := ih (fun x hx => h x (List.mem_cons_of_mem _ hx))
    have : parseDigits ((t.map digitToChar).reverse ++ [digitToChar d])
        = 10 * parseDigits ((t.map digitToChar).reverse) + charVal (digitToChar d) := by
      unfold parseDigits
      rw [List.foldl_append]
      rfl
    simp only [List.map_cons, List.reverse_cons, this, ih']
    have hv : charVal (digitToChar d) = d := by
      unfold charVal
      rw [digitToChar_toNat hd]
      omega
    rw [hv, Nat.ofDigits_cons]
    ring

theorem parseDigits_renderNat (n : Nat) : parseDigits (renderNat n) = n := by
  unfold renderNat
  by_cases h0 : n = 0
  · simp [h0]
    rfl
  · simp only [h0, if_false]
    rw [parseDigits_rev_map _ (fun d hd => Nat.digits_lt_base (by norm_num) hd)]
    exact_mod_cast Nat.ofDigits_digits 10 n

theorem takeDigits_render (n : Nat) (r : List Char)
    (hr : ∀ c, r.head? = some c → isDigitChar c = false) :
    takeDigits (renderNat n ++ r) = (renderNat n, r) :=
  takeDigits_append _ _ (renderNat_all_digits n) hr

theorem matchHunkAt_render (os ns : Nat) (oc nc : Option Nat) :
    matchHunkAt (hunkHeaderChars os oc ns nc)
      = some (renderNat ns, nc.map renderNat) := by
  have hos := renderNat_ne_nil os
  have hns := renderNat_ne_nil ns
  have hcomma : isDigitChar ',' = false := by decide
  have hspace : isDigitChar ' ' = false := by decide
  unfold hunkHeaderChars
  unfold matchHunkAt
  rw [dropLit_append]
  dsimp only
  have h1 : takeDigits (renderNat os ++ (renderOptCount oc ++
      (hunkMidLit ++ (renderNat ns ++ (renderOptCount nc ++ hunkEndLit)))))
      = (renderNat os, renderOptCount oc ++
      (hunkMidLit ++ (renderNat ns ++ (renderOptCount nc ++ hunkEndLit)))) := by
    apply takeDigits_render
    intro c hc
    cases oc with
    | none =>
      simp [renderOptCount, hunkMidLit] at hc
      rw [← hc]
      exact hspace
    | some a =>
      simp [renderOptCount] at hc
      rw [← hc]
      exact hcomma
  rw [h1]
  dsimp only
  rw [if_neg hos]
  have h2 : chompOptCommaDigits (renderOptCount oc ++
      (hunkMidLit ++ (renderNat ns ++ (renderOptCount nc ++ hunkEndLit))))
      = hunkMidLit ++ (renderNat ns ++ (renderOptCount nc ++ hunkEndLit)) := by
    cases oc with
    | none => simp [renderOptCount, chompOptCommaDigits, hunkMidLit]
    | some a =>
      have ha := renderNat_ne_nil a
      have hta : takeDigits (renderNat a ++
          (hunkMidLit ++ (renderNat ns ++ (renderOptCount nc ++ hunkEndLit))))
          = (renderNat a, hunkMidLit ++ (renderNat ns ++ (renderOptCount nc ++ hunkEndLit))) := by
        apply takeDigits_render
        intro c hc
        simp [hunkMidLit] at hc
        rw [← hc]
        exact hspace
      show chompOptCommaDigits ((',' :: renderNat a) ++
          (hunkMidLit ++ (renderNat ns ++ (renderOptCount nc ++ hunkEndLit)))) = _
      rw [List.cons_append]
      unfold chompOptCommaDigits
      dsimp only
      rw [if_pos rfl, hta]
      dsimp only
      rw [if_neg ha]
  rw [h2]
  have h3 : dropLit hunkMidLit (hunkMidLit ++ (renderNat ns ++ (renderOptCount nc ++ hunkEndLit)))
      = some (renderNat ns ++ (renderOptCount nc ++ hunkEndLit)) := dropLit_append _ _
  rw [h3]
  dsimp only
  have h4 : takeDigits (renderNat ns ++ (renderOptCount nc ++ hunkEndLit))
      = (renderNat ns, renderOptCount nc ++ hunkEndLit) := by
    apply takeDigits_render
    intro c hc
    cases nc with
    | none =>
      simp [renderOptCount, hunkEndLit] at hc
      rw [← hc]
      exact hspace
    | some b =>
      simp [renderOptCount] at hc
      rw [← hc]
      exact hcomma
  rw [h4]
  dsimp only
  rw [if_neg hns]
  have h5 : grabOptCommaDigits (renderOptCount nc ++ hunkEndLit)
      = (nc.map renderNat, hunkEndLit) := by
    cases nc with
    | none => simp [renderOptCount, grabOptCommaDigits, hunkEndLit]
    | some b =>
      have hb := renderNat_ne_nil b
      have htb : takeDigits (renderNat b ++ hunkEndLit) = (renderNat b, hunkEndLit) := by
        apply takeDigits_render
        intro c hc
        simp [hunkEndLit] at hc
        rw [← hc]
        exact hspace
      show grabOptCommaDigits ((',' :: renderNat b) ++ hunkEndLit) = _
      rw [List.cons_append]
      unfold grabOptCommaDigits
      dsimp only
      rw [if_pos rfl, htb]
      dsimp only
      rw [if_neg hb]
      rfl
  rw [h5]
  dsimp only
  have h6 : dropLit hunkEndLit hunkEndLit = some [] := by
    have := dropLit_append hunkEndLit []
    simpa using this
  rw [h6]

theorem findHunkMatch_of_matchHunkAt (cs : List Char) (r : List Char × Option (List Char))
    (h : matchHunkAt cs = some r) : findHunkMatch cs = some r := by
  cases cs with
  | nil => rw [findHunkMatch, h]
  | cons c rest =>
    rw [findHunkMatch, h]

theorem parseHunkHeader_render (os : Nat) (oc : Option Nat) (ns : Nat) (nc : Option Nat) :
    parseHunkHeader (renderHunkHeader os oc ns nc)
      = (List.range (nc.getD 1)).map (fun i => ns + i) := by
  unfold parseHunkHeader renderHunkHeader
  show parseHunkHeaderChars (hunkHeaderChars os oc ns nc) = _
  unfold parseHunkHeaderChars
  rw [findHunkMatch_of_matchHunkAt _ _ (matchHunkAt_render os ns oc nc)]
  cases nc with
  | none => simp [parseDigits_renderNat]
  | some b => simp [parseDigits_renderNat]

/-- C1: for every hunk header of the form
`@@ -oldStart[,oldCount] +newStart[,newCount] @@`, `parseHunkHeader`
returns exactly the integer range `[newStart, newStart + newCount - 1]`,
where `newCount` defaults to `1` when omitted and an explicit
`newCount = 0` yields the empty set; in particular `@@ -10,0 +15,3 @@`
yields `{15,16,17}`, `@@ -5,2 +5,0 @@` yields `{}` and `@@ -1 +1 @@`
yields `{1}`. -/
theorem claim_c1 :
    (∀ (oldStart : Nat) (oldCount : Option Nat) (newStart : Nat) (newCount : Option Nat),
        parseHunkHeader (renderHunkHeader oldStart oldCount newStart newCount)
          = (List.range (newCount.getD 1)).map (fun i => newStart + i))
    ∧ parseHunkHeader ("@@ -10,0 +15,3 @@") = [15, 16, 17]
    ∧ parseHunkHeader ("@@ -5,2 +5,0 @@") = []
    ∧ parseHunkHeader ("@@ -1 +1 @@") = [1] :=
  ⟨parseHunkHeader_render, by decide, by decide, by decide⟩


/-- File status of a changed file, from `src/types.ts`. -/
inductive FileStatus
  | ADDED
  | MODIFIED
  | DELETED
  | RENAMED
deriving DecidableEq

/-- A file diff with its specific changed lines, from `src/types.ts`
(`FileDiff`). -/
structure FileDiff where
  path : String
  status : FileStatus
  changedLines : List Nat
deriving DecidableEq

/-- Extracted test block information, from the analyzer's `TestBlockInfo`. -/
structure TestBlockInfo where
  name : String
  startLine : Nat
  endLine : Nat
  isDynamic : Bool
deriving DecidableEq

/-- The type of impact that caused a test to be selected, from
`src/types.ts` (`ImpactType`). -/
inductive ImpactType
  | DIRECT
  | DEPENDENCY
  | REMOVED
deriving DecidableEq

/-- A test impacted by changes, from `src/types.ts` (`ImpactedTest`),
with the `isDynamic` flag of the extended type declaration. -/
structure ImpactedTest where
  testName : String
  fileName : String
  impactType : ImpactType
  isDynamic : Bool
deriving DecidableEq

/-- Per-file analysis result, from `src/types.ts` (`FileAnalysisResult`)
together with the `hasDynamicTests` aggregate used by the analyzer. -/
structure FileAnalysisResult where
  filePath : String
  status : FileStatus
  tests : List ImpactedTest
  hasDynamicTests : Bool
deriving DecidableEq

/-- The complete analysis report, from `src/types.ts` (`AnalysisReport`). -/
structure AnalysisReport where
  commitSha : String
  repoPath : String
  fileResults : List FileAnalysisResult
  totalTestsSelected : Nat
deriving DecidableEq

/-- One indexed project source file with the module specifiers it imports;
this models the `ts-morph` project used by `Analyzer.findDirectImporters`
(a source file paired with `getImportDeclarations` specifier values). -/
structure ModuleNode where
  path : String
  imports : List String
deriving DecidableEq

/-- Substring test, modelling JavaScript `String.prototype.includes`. -/
def containsSub (needle : List Char) : List Char → Bool
  | [] => needle.isEmpty
  | c :: rest => needle.isPrefixOf (c :: rest) || containsSub needle rest

/-- Suffix test on character lists, modelling JavaScript
`String.prototype.endsWith`. -/
def endsWithC (suffix cs : List Char) : Bool :=
  suffix.reverse.isPrefixOf cs.reverse

/-- Shallow embedding of `Analyzer.isTestFile`: a file is a test file iff
its path ends with `.spec.ts` or `.test.ts`. -/
def isTestFile (p : String) : Bool :=
  endsWithC (".spec.ts".data) p.data || endsWithC (".test.ts".data) p.data

/-- Shallow embedding of `Analyzer.isNodeModulesFile`: backslashes are
normalised to slashes and the path is searched for a `node_modules`
segment. -/
def isNodeModulesFile (p : String) : Bool :=
  containsSub ("/node_modules/".data) (p.data.map (fun c => if c = '\\' then '/' else c))
    || containsSub ("\\node_modules\\".data) (p.data.map (fun c => if c = '\\' then '/' else c))

/-- Model of Node `path.resolve(repoPath, relative)`: joining an absolute
repository root with a repo-relative path.  Paths handled by the analyzer are
already in canonical form, so no further normalisation happens. -/
def resolvePath (repo p : String) : String :=
  String.mk (repo.data ++ '/' :: p.data)

/-- Model of Node `path.relative(repoPath, absolute)` for the canonical
paths used here: strip the `repoPath ++ "/"` prefix when present. -/
def relPath (repo ap : String) : String :=
  if (repo.data ++ [ '/' ]).isPrefixOf ap.data then
    String.mk (ap.data.drop (repo.data.length + 1))
  else ap

/-- Last path component, modelling Node `path.basename` on canonical
slash-separated paths. -/
def lastComponent (cs : List Char) : List Char :=
  cs.foldl (fun acc c => if c = '/' then [] else acc ++ [ c ]) []

/-- Target file name used for import matching in
`Analyzer.findDirectImporters`: `path.basename(targetFilePath, '.ts')`
followed by `.replace(/\.tsx?$/, '')`. -/
def targetNameWithoutExt (p : String) : List Char :=
  let base0 := lastComponent p.data
  let base :=
    if endsWithC (".ts".data) base0 && decide (base0.length > 3) then
      base0.take (base0.length - 3)
    else base0
  if endsWithC (".tsx".data) base then base.take (base.length - 4)
  else if endsWithC (".ts".data) base then base.take (base.length - 3)
  else base

/-- Shallow embedding of `Analyzer.findDirectImporters`: every indexed
source file, other than the target itself and files under `node_modules`,
whose import specifiers contain the target's extension-less base name. -/
def findDirectImporters (g : List ModuleNode) (target : String) : List String :=
  (g.filter (fun sf =>
    !isNodeModulesFile sf.path && !(sf.path == target) &&
      sf.imports.any (fun m => containsSub (targetNameWithoutExt target) m.data))).map
    (fun sf => sf.path)

/-- Insertion into an insertion-ordered duplicate-free list; this models
`Set.prototype.add` followed later by `Array.from`. -/
def insertUnique (l : List String) (a : String) : List String :=
  if a ∈ l then l else l ++ [ a ]

/-- Inner loop of the BFS in `Analyzer.findDependentTestFiles`: walk the
direct importers of the current file, skipping visited and `node_modules`
entries, collecting test files into the impacted set and queueing source
files for further expansion. -/
def processImporters (visited : List String) (impacted : List String) :
    List String → List String × List String
  | [] => (impacted, [])
  | imp :: rest =>
    if imp ∈ visited then processImporters visited impacted rest
    else if isNodeModulesFile imp then processImporters visited impacted rest
    else if isTestFile imp then processImporters visited (insertUnique impacted imp) rest
    else
      ((processImporters visited impacted rest).1,
        imp :: (processImporters visited impacted rest).2)

/-- Fuel-indexed embedding of the `while (queue.length > 0)` loop of
`Analyzer.findDependentTestFiles`; `none` means the fuel ran out before the
queue emptied.  `bfs_fuel_sufficient` below shows the fuel
`bfsFuel g` always suffices, i.e. the source loop terminates. -/
def bfsAux (g : List ModuleNode) : Nat → List String → List String → List String → Option (List String)
  | _, [], _, impacted => some impacted
  | 0, _ :: _, _, _ => none
  | fuel + 1, cur :: rest, visited, impacted =>
    if cur ∈ visited then bfsAux g fuel rest visited impacted
    else if isNodeModulesFile cur then bfsAux g fuel rest (cur :: visited) impacted
    else
      bfsAux g fuel
        (rest ++ (processImporters (cur :: visited) impacted (findDirectImporters g cur)).2)
        (cur :: visited)
        (processImporters (cur :: visited) impacted (findDirectImporters g cur)).1

/-- Fuel that always suffices for the BFS: every loop iteration either
shortens the queue or visits a previously unvisited candidate, and at most
`g.length + 1` files (the start file and the indexed files) can ever be
queued. -/
def bfsFuel (g : List ModuleNode) : Nat := (g.length + 1) * (g.length + 1) + 1

/-- Shallow embedding of `Analyzer.findDependentTestFiles`: BFS over the
transitive importers of the changed source file, returning the impacted
test files. -/
def findDependentTestFiles (g : List ModuleNode) (sourceFilePath : String) : List String :=
  (bfsAux g (bfsFuel g) [ sourceFilePath ] [] []).getD []

/-- Shallow embedding of `Analyzer.hasIntersection`: some changed line
falls inside the inclusive test block span. -/
def hasIntersection (testStartLine testEndLine : Nat) (changedLines : List Nat) : Bool :=
  changedLines.any (fun line => decide (testStartLine ≤ line) && decide (line ≤ testEndLine))

/-- Shallow embedding of `Analyzer.findRemovedTests`: names of old tests
whose name is absent from the new test list. -/
def findRemovedTests (oldTests newTests : List TestBlockInfo) : List String :=
  (oldTests.filter (fun t => !((newTests.map (fun n => n.name)).contains t.name))).map
    (fun t => t.name)

/-- The analyzer's effectful surroundings, made explicit: the import graph
indexed by the `ts-morph` project, the parsed test blocks of each on-disk
file (`addSourceFileAtPath` + `extractTestBlocks`, `none` when the file
cannot be read or parsed), and the parsed test blocks of each file's
parent-commit content (`getFileContent` + `extractTestBlocksFromContent`
keyed by repo-relative path, `none` when the content is unavailable or does
not parse). -/
structure AnalyzerEnv where
  graph : List ModuleNode
  currentBlocks : String → Option (List TestBlockInfo)
  oldBlocks : String → Option (List TestBlockInfo)

/-- An `ImpactedTest` recording the removal of an old test block. -/
def mkRemoved (fileName : String) (t : TestBlockInfo) : ImpactedTest :=
  ⟨t.name, fileName, ImpactType.REMOVED, t.isDynamic⟩

/-- Shallow embedding of the extended `Analyzer.analyzeTestFile`
(async draft, lines 394–495): for DELETED files every parent-commit test
becomes REMOVED (or none when parent content is unavailable); otherwise the
current blocks are filtered by intersection with the changed lines into
DIRECT tests, and for MODIFIED files with parent content the name-set
difference against the parent version is appended as REMOVED tests.
`hasParent` stands for `prevCommitSha && gitService` being available. -/
def analyzeTestFile (env : AnalyzerEnv) (absolutePath : String) (fd : FileDiff)
    (hasParent : Bool) : FileAnalysisResult :=
  if fd.status = FileStatus.DELETED then
    match hasParent, env.oldBlocks fd.path with
    | true, some oldTests =>
      ⟨fd.path, fd.status, oldTests.map (mkRemoved fd.path),
        oldTests.any (fun t => t.isDynamic)⟩
    | _, _ => ⟨fd.path, fd.status, [], false⟩
  else
    match env.currentBlocks absolutePath with
    | none => ⟨fd.path, fd.status, [], false⟩
    | some currentTestBlocks =>
      let direct := (currentTestBlocks.filter
        (fun b => hasIntersection b.startLine b.endLine fd.changedLines)).map
        (fun b => ⟨b.name, fd.path, ImpactType.DIRECT, b.isDynamic⟩)
      let removed :=
        if hasParent = true ∧ fd.status = FileStatus.MODIFIED then
          match env.oldBlocks fd.path with
          | some oldTests =>
            (findRemovedTests oldTests currentTestBlocks).map (fun n =>
              ⟨n, fd.path, ImpactType.REMOVED,
                ((oldTests.find? (fun t => t.name == n)).map (fun t => t.isDynamic)).getD false⟩)
          | none => []
        else []
      ⟨fd.path, fd.status, direct ++ removed,
        (direct ++ removed).any (fun t => t.isDynamic)⟩

/-- Shallow embedding of `Analyzer.analyzeDependentTestFile`: every test
block of the dependent test file becomes a DEPENDENCY-impacted test, under
the repo-relative path of the file. -/
def analyzeDependentTestFile (env : AnalyzerEnv) (repoPath testFilePath : String)
    (sourceFileDiff : FileDiff) : FileAnalysisResult :=
  match env.currentBlocks testFilePath with
  | none => ⟨relPath repoPath testFilePath, sourceFileDiff.status, [], false⟩
  | some testBlocks =>
    ⟨relPath repoPath testFilePath, sourceFileDiff.status,
      testBlocks.map (fun b =>
        ⟨b.name, relPath repoPath testFilePath, ImpactType.DEPENDENCY, b.isDynamic⟩),
      testBlocks.any (fun b => b.isDynamic)⟩

/-- The `for (const testFilePath of dependentTestFiles)` loop inside
`Analyzer.analyze`: dependent test files not yet processed and with a
non-empty result are appended to the results and marked processed. -/
def depLoop (env : AnalyzerEnv) (repoPath : String) (fd : FileDiff) :
    List String → List FileAnalysisResult → List String →
      List FileAnalysisResult × List String
  | [], acc, processed => (acc, processed)
  | tf :: rest, acc, processed =>
    if tf ∈ processed then depLoop env repoPath fd rest acc processed
    else
      if (analyzeDependentTestFile env repoPath tf fd).tests.length > 0 then
        depLoop env repoPath fd rest
          (acc ++ [ analyzeDependentTestFile env repoPath tf fd ]) (tf :: processed)
      else depLoop env repoPath fd rest acc processed

/-- The `for (const fileDiff of changedFiles)` loop of `Analyzer.analyze`:
test files go through `analyzeTestFile` (kept when non-empty or DELETED),
non-test non-deleted `.ts` files route to their dependent test files. -/
def analyzeLoop (env : AnalyzerEnv) (repoPath : String) (hasParent : Bool) :
    List FileDiff → List FileAnalysisResult → List String → List FileAnalysisResult
  | [], acc, _ => acc
  | fd :: rest, acc, processed =>
    if isTestFile fd.path then
      if (analyzeTestFile env (resolvePath repoPath fd.path) fd hasParent).tests.length > 0
          ∨ fd.status = FileStatus.DELETED then
        analyzeLoop env repoPath hasParent rest
          (acc ++ [ analyzeTestFile env (resolvePath repoPath fd.path) fd hasParent ])
          (resolvePath repoPath fd.path :: processed)
      else analyzeLoop env repoPath hasParent rest acc processed
    else
      if endsWithC (".ts".data) fd.path.data = true ∧ fd.status ≠ FileStatus.DELETED then
        analyzeLoop env repoPath hasParent rest
          (depLoop env repoPath fd
            (findDependentTestFiles env.graph (resolvePath repoPath fd.path)) acc processed).1
          (depLoop env repoPath fd
            (findDependentTestFiles env.graph (resolvePath repoPath fd.path)) acc processed).2
      else analyzeLoop env repoPath hasParent rest acc processed

/-- Shallow embedding of `Analyzer.analyze`: run the per-file loop and sum
the selected tests with the final `reduce`. -/
def analyze (env : AnalyzerEnv) (repoPath commitSha : String)
    (changedFiles : List FileDiff) (hasParent : Bool) : AnalysisReport :=
  ⟨commitSha, repoPath, analyzeLoop env repoPath hasParent changedFiles [] [],
    (analyzeLoop env repoPath hasParent changedFiles [] []).foldl
      (fun sum r => sum + r.tests.length) 0⟩


/-- The regex special characters escaped by `escapeRegExp` in
`src/index.ts`: backslash, caret, dollar, dot, pipe, question mark, star,
plus, parentheses, square brackets and curly braces. -/
def regexSpecials : List Char :=
  [ '\\', '^', '$', '.', '|', '?', '*', '+', '(', ')', '[', ']', Char.ofNat 123, Char.ofNat 125 ]

/-- Shallow embedding of `escapeRegExp` from `src/index.ts`: every regex
special character is prefixed with a backslash. -/
def escapeRegExp (s : String) : String :=
  String.mk (s.data.flatMap (fun c => if regexSpecials.contains c then [ '\\', c ] else [ c ]))

/-- JSON output schema of `src/index.ts` (`JsonOutput`). -/
structure JsonOutput where
  files : List String
  tests : List String
  grep : String
  filesWithDynamicTests : List String
  hasDynamicTests : Bool
deriving DecidableEq

/-- The four accumulators of `toJsonOutput`: `filesSet`, `testsSet`,
`dynamicFilesSet` (insertion-ordered sets) and the `hasDynamicTests`
flag. -/
structure JsonAcc where
  files : List String
  tests : List String
  dynamicFiles : List String
  hasDynamicTests : Bool
deriving DecidableEq

/-- Body of the inner `for (const test of fileResult.tests)` loop of
`toJsonOutput`: dynamic tests flag the file and are skipped, other tests
join the tests set. -/
def jsonTestsFold (filePath : String) (acc : JsonAcc) (t : ImpactedTest) : JsonAcc :=
  if t.isDynamic then ⟨acc.files, acc.tests, insertUnique acc.dynamicFiles filePath, true⟩
  else ⟨acc.files, insertUnique acc.tests t.testName, acc.dynamicFiles, acc.hasDynamicTests⟩

/-- Body of the outer `for (const fileResult of report.fileResults)` loop of
`toJsonOutput`: a file flagged `hasDynamicTests` joins both file sets and is
skipped entirely (`continue`), any other file with impacted tests joins the
files set and its tests are folded one by one. -/
def jsonFileFold (acc : JsonAcc) (fr : FileAnalysisResult) : JsonAcc :=
  if fr.hasDynamicTests then
    ⟨insertUnique acc.files fr.filePath, acc.tests,
      insertUnique acc.dynamicFiles fr.filePath, true⟩
  else
    fr.tests.foldl (jsonTestsFold fr.filePath)
      (if fr.tests.length > 0 then
        ⟨insertUnique acc.files fr.filePath, acc.tests, acc.dynamicFiles, acc.hasDynamicTests⟩
      else acc)

/-- JavaScript `Array.prototype.join('|')`. -/
def joinBar : List String → String
  | [] => ""
  | [ s ] => s
  | s :: rest => s ++ "|" ++ joinBar rest

/-- Shallow embedding of `toJsonOutput` from `src/index.ts` (lines
236–286). -/
def toJsonOutput (report : AnalysisReport) : JsonOutput :=
  ⟨(report.fileResults.foldl jsonFileFold ⟨[], [], [], false⟩).files,
    (report.fileResults.foldl jsonFileFold ⟨[], [], [], false⟩).tests,
    (if (report.fileResults.foldl jsonFileFold ⟨[], [], [], false⟩).tests.length > 0 then
      joinBar (((report.fileResults.foldl jsonFileFold ⟨[], [], [], false⟩).tests).map escapeRegExp)
    else ""),
    (report.fileResults.foldl jsonFileFold ⟨[], [], [], false⟩).dynamicFiles,
    (report.fileResults.foldl jsonFileFold ⟨[], [], [], false⟩).hasDynamicTests⟩


/-- JavaScript `String.prototype.split` on a single separator character:
every separator occurrence splits, empty pieces are kept. -/
def splitOnChar (sep : Char) : List Char → List (List Char)
  | [] => [ [] ]
  | c :: rest =>
    match splitOnChar sep rest with
    | [] => [ [] ]
    | h :: t => if c = sep then [] :: h :: t else (c :: h) :: t

/-- Join lines with a newline character (inverse of splitting on `'\n'`
for newline-free lines). -/
def joinLinesC : List (List Char) → List Char
  | [] => []
  | [ l ] => l
  | l :: ls => l ++ '\n' :: joinLinesC ls

/-- Whitespace for the purposes of JavaScript `String.prototype.trim`. -/
def isWSChar (c : Char) : Bool :=
  c = ' ' || c = '\t' || c = '\n' || c = '\r'

/-- JavaScript `String.prototype.trim`. -/
def trimC (cs : List Char) : List Char :=
  ((cs.dropWhile isWSChar).reverse.dropWhile isWSChar).reverse

/-- JavaScript `String.prototype.startsWith` on character lists. -/
def startsWithC (lit cs : List Char) : Bool := lit.isPrefixOf cs

/-- The skip conditions applied to each name-status line by
`GitService.getChangedFiles` before status parsing. -/
def skipStatusLine (l : List Char) : Bool :=
  startsWithC ("diff ".data) l || startsWithC ("@@".data) l ||
    startsWithC ("index ".data) l || startsWithC ("---".data) l ||
    startsWithC ("+++".data) l || startsWithC ("+".data) l ||
    startsWithC ("-".data) l || startsWithC ("\\".data) l

/-- The `switch (statusChar)` of `GitService.getChangedFiles`. -/
def statusFromChar : Option Char → FileStatus
  | some 'A' => FileStatus.ADDED
  | some 'D' => FileStatus.DELETED
  | some 'R' => FileStatus.RENAMED
  | _ => FileStatus.MODIFIED

/-- One iteration of the status-parsing loop of
`GitService.getChangedFiles`: split the line on tabs, take the status from
the first cell's first character and the path from the third cell for
renames (two or more tabs) or the second cell otherwise, and record it in
the `fileStatuses` map. -/
def statusLineStep (m : String → Option FileStatus) (line : List Char) :
    String → Option FileStatus :=
  if skipStatusLine line then m
  else
    if 2 ≤ (splitOnChar '\t' line).length then
      if ((if 3 ≤ (splitOnChar '\t' line).length then (splitOnChar '\t' line).getD 2 []
        else (splitOnChar '\t' line).getD 1 [])) = [] then m
      else fun x =>
        if x = String.mk ((if 3 ≤ (splitOnChar '\t' line).length then (splitOnChar '\t' line).getD 2 []
            else (splitOnChar '\t' line).getD 1 [])) then
          some (statusFromChar (((splitOnChar '\t' line).getD 0 []).head?))
        else m x
    else m

/-- The `fileStatuses` map built by `GitService.getChangedFiles` from the
`git show --name-status` output. -/
def parseStatusLines (statusOutput : List Char) : String → Option FileStatus :=
  ((splitOnChar '\n' statusOutput).filter (fun l => !(trimC l).isEmpty)).foldl
    statusLineStep (fun _ => none)

/-- All decompositions `cs = pre ++ sep ++ post`, ordered by increasing
`pre` length. -/
def splitsOn (sep : List Char) : List Char → List (List Char × List Char)
  | [] => []
  | c :: rest =>
    (if sep.isPrefixOf (c :: rest) then [ (([] : List Char), (c :: rest).drop sep.length) ] else [])
      ++ (splitsOn sep rest).map (fun pr => (c :: pr.1, pr.2))

/-- The literal `diff --git a/` starting a per-file diff header. -/
def diffHdrLit : List Char := "diff --git a/".data

/-- The literal ` b/` separating the two paths of a diff header. -/
def bSepLit : List Char := " b/".data

/-- Matching of the anchored file-header regular expression
`^diff --git a\/.+ b\/(.+)$` of `GitService.getChangedFiles`: the line must
start with the literal, and the capture is the text after the last ` b/`
occurrence that leaves at least one character on each side (the greedy
`.+` picks the rightmost viable separator). -/
def parseFileHeaderLine (line : List Char) : Option String :=
  match dropLit diffHdrLit line with
  | none => none
  | some rest =>
    match ((splitsOn bSepLit rest).filter
        (fun pr => !(pr.1.isEmpty) && !(pr.2.isEmpty))).getLast? with
    | some pr => some (String.mk pr.2)
    | none => none

/-- State of the diff-parsing loop of `GitService.getChangedFiles`:
`currentFile`, `currentChangedLines` and the accumulated `fileDiffs`. -/
structure DiffLoopState where
  currentFile : Option String
  currentChangedLines : List Nat
  results : List FileDiff
deriving DecidableEq

/-- Flush the accumulated lines of the current file into the results, as
done on each new file header and once after the loop. -/
def flushDiffState (statuses : String → Option FileStatus) (st : DiffLoopState) :
    List FileDiff :=
  match st.currentFile with
  | some f =>
    st.results ++ [ ⟨f, (statuses f).getD FileStatus.MODIFIED, st.currentChangedLines⟩ ]
  | none => st.results

/-- One iteration of the diff-parsing loop of `GitService.getChangedFiles`:
a file header flushes the previous file and starts a new one, a hunk header
appends its parsed line numbers, anything else is ignored. -/
def stepDiffLine (statuses : String → Option FileStatus) (st : DiffLoopState)
    (line : List Char) : DiffLoopState :=
  match parseFileHeaderLine line with
  | some newFile => ⟨some newFile, [], flushDiffState statuses st⟩
  | none =>
    if startsWithC ("@@".data) line then
      ⟨st.currentFile, st.currentChangedLines ++ parseHunkHeaderChars line, st.results⟩
    else st

/-- Shallow embedding of the pure core of `GitService.getChangedFiles`
(src/git.ts, lines 137–252): parse the name-status listing into a path→status
map, then scan the zero-context diff, collecting hunk line numbers per file
header, flushing once more at the end. -/
def getChangedFiles (rawDiff statusOutput : String) : List FileDiff :=
  flushDiffState (parseStatusLines statusOutput.data)
    ((splitOnChar '\n' rawDiff.data).foldl (stepDiffLine (parseStatusLines statusOutput.data))
      ⟨none, [], []⟩)

/-- Numeric content of one hunk header of a zero-context diff. -/
structure HunkInfo where
  oldStart : Nat
  oldCount : Option Nat
  newStart : Nat
  newCount : Option Nat
deriving DecidableEq

/-- One hunk of git output: its header and its content lines (which in a
zero-context diff all start with `+` or `-`). -/
structure HunkBlock where
  info : HunkInfo
  body : List (List Char)
deriving DecidableEq

/-- One file of a commit as printed by `git show`: the diff-header paths,
the name-status code (`A`, `M`, `D`, `R<score>`), the metadata lines
between header and hunks, and the hunks. -/
structure CommitFile where
  oldPath : String
  newPath : String
  code : String
  meta : List (List Char)
  hunks : List HunkBlock
deriving DecidableEq

/-- New-file line numbers announced by one hunk header. -/
def hunkNewLines (h : HunkInfo) : List Nat :=
  (List.range (h.newCount.getD 1)).map (fun i => h.newStart + i)

/-- All new-file line numbers of a commit file's hunks. -/
def entryChangedLines (f : CommitFile) : List Nat :=
  f.hunks.flatMap (fun hb => hunkNewLines hb.info)

/-- Rendered `diff --git a/<old> b/<new>` header line. -/
def renderHeaderLine (f : CommitFile) : List Char :=
  diffHdrLit ++ (f.oldPath.data ++ (bSepLit ++ f.newPath.data))

/-- Rendered lines of one hunk: its header followed by its content lines. -/
def renderHunkBlock (hb : HunkBlock) : List (List Char) :=
  hunkHeaderChars hb.info.oldStart hb.info.oldCount hb.info.newStart hb.info.newCount :: hb.body

/-- Rendered lines of one file section of `git show --format= -U0`. -/
def renderEntryLines (f : CommitFile) : List (List Char) :=
  renderHeaderLine f :: (f.meta ++ f.hunks.flatMap renderHunkBlock)

/-- Rendered zero-context diff of a commit, as produced by
`git show --format= -U0`. -/
def renderRawDiff (fs : List CommitFile) : String :=
  String.mk (joinLinesC (fs.flatMap renderEntryLines))

/-- Rendered `git show --name-status --format=` line of one file: the code,
then for renames the old and new path, otherwise just the path,
tab-separated. -/
def renderStatusLine (f : CommitFile) : List Char :=
  if startsWithC ("R".data) f.code.data then
    f.code.data ++ '\t' :: (f.oldPath.data ++ '\t' :: f.newPath.data)
  else f.code.data ++ '\t' :: f.newPath.data

/-- Rendered `git show --name-status --format=` output of a commit. -/
def renderNameStatus (fs : List CommitFile) : String :=
  String.mk (joinLinesC (fs.map renderStatusLine))


theorem hasIntersection_iff (s e : Nat) (ls : List Nat) :
    hasIntersection s e ls = true ↔ ∃ l ∈ ls, s ≤ l ∧ l ≤ e := by
  simp [hasIntersection]

theorem analyzeTestFile_tests_split (env : AnalyzerEnv) (absolutePath : String)
    (fd : FileDiff) (hasParent : Bool) (blocks : List TestBlockInfo)
    (hst : fd.status ≠ FileStatus.DELETED) (hcb : env.currentBlocks absolutePath = some blocks) :
    ∃ removed : List ImpactedTest,
      (analyzeTestFile env absolutePath fd hasParent).tests
        = (blocks.filter (fun b => hasIntersection b.startLine b.endLine fd.changedLines)).map
            (fun b => ⟨b.name, fd.path, ImpactType.DIRECT, b.isDynamic⟩) ++ removed
      ∧ ∀ t ∈ removed, t.impactType = ImpactType.REMOVED := by
  unfold analyzeTestFile
  rw [if_neg hst, hcb]
  dsimp only
  refine ⟨_, rfl, ?_⟩
  intro t ht
  split at ht
  · split at ht
    · simp at ht
      obtain ⟨n, _, rfl⟩ := ht
      rfl
    · simp at ht
  · simp at ht

theorem analyzeTestFile_direct_filter (env : AnalyzerEnv) (absolutePath : String)
    (fd : FileDiff) (hasParent : Bool) (blocks : List TestBlockInfo)
    (hst : fd.status ≠ FileStatus.DELETED) (hcb : env.currentBlocks absolutePath = some blocks) :
    ((analyzeTestFile env absolutePath fd hasParent).tests.filter
        (fun t => decide (t.impactType = ImpactType.DIRECT)))
      = (blocks.filter (fun b => hasIntersection b.startLine b.endLine fd.changedLines)).map
          (fun b => ⟨b.name, fd.path, ImpactType.DIRECT, b.isDynamic⟩) := by
  obtain ⟨removed, heq, hrem⟩ :=
    analyzeTestFile_tests_split env absolutePath fd hasParent blocks hst hcb
  rw [heq, List.filter_append]
  have h1 : ((blocks.filter (fun b => hasIntersection b.startLine b.endLine fd.changedLines)).map
      (fun b => (⟨b.name, fd.path, ImpactType.DIRECT, b.isDynamic⟩ : ImpactedTest))).filter
        (fun t => decide (t.impactType = ImpactType.DIRECT))
      = (blocks.filter (fun b => hasIntersection b.startLine b.endLine fd.changedLines)).map
          (fun b => ⟨b.name, fd.path, ImpactType.DIRECT, b.isDynamic⟩) := by
    apply List.filter_eq_self.mpr
    intro t ht
    simp at ht
    obtain ⟨b, _, rfl⟩ := ht
    simp
  have h2 : removed.filter (fun t => decide (t.impactType = ImpactType.DIRECT)) = [] := by
    apply List.filter_eq_nil_iff.mpr
    intro t ht
    simp [hrem t ht]
  rw [h1, h2, List.append_nil]

/-- C2: for every test block with span `[startLine, endLine]` and every
changed-line set, the test is selected with impactType DIRECT if and only
if some changed line `l` satisfies `startLine ≤ l ≤ endLine`; if all
changed lines are outside the span the test is not selected. -/
theorem claim_c2 :
    (∀ (testStartLine testEndLine : Nat) (changedLines : List Nat),
        hasIntersection testStartLine testEndLine changedLines = true
          ↔ ∃ l ∈ changedLines, testStartLine ≤ l ∧ l ≤ testEndLine)
    ∧ (∀ (env : AnalyzerEnv) (absolutePath : String) (fd : FileDiff) (hasParent : Bool)
        (blocks : List TestBlockInfo),
        fd.status ≠ FileStatus.DELETED → env.currentBlocks absolutePath = some blocks →
        ((analyzeTestFile env absolutePath fd hasParent).tests.filter
            (fun t => decide (t.impactType = ImpactType.DIRECT)))
          = (blocks.filter (fun b => hasIntersection b.startLine b.endLine fd.changedLines)).map
              (fun b => ⟨b.name, fd.path, ImpactType.DIRECT, b.isDynamic⟩)) :=
  ⟨hasIntersection_iff, fun env ap fd hp blocks h1 h2 =>
    analyzeTestFile_direct_filter env ap fd hp blocks h1 h2⟩

/-- Witness for C2 at the specification's example: a test spanning lines
20–35 is selected as DIRECT when line 22 changed, and line 36 or 19 alone
selects nothing. -/
theorem claim_c2_witness :
    (((analyzeTestFile
        ⟨[], (fun p => if p = "r/login.spec.ts" then
            some [ ⟨"shows error", 20, 35, false⟩ ] else none), fun _ => none⟩
        "r/login.spec.ts" ⟨"login.spec.ts", FileStatus.MODIFIED, [ 22 ]⟩ false).tests.filter
        (fun t => decide (t.impactType = ImpactType.DIRECT)))
      = [ ⟨"shows error", "login.spec.ts", ImpactType.DIRECT, false⟩ ])
    ∧ (((analyzeTestFile
        ⟨[], (fun p => if p = "r/login.spec.ts" then
            some [ ⟨"shows error", 20, 35, false⟩ ] else none), fun _ => none⟩
        "r/login.spec.ts" ⟨"login.spec.ts", FileStatus.MODIFIED, [ 36, 19 ]⟩ false).tests.filter
        (fun t => decide (t.impactType = ImpactType.DIRECT)))
      = []) := by
  constructor
  · rw [claim_c2.2 _ _ _ _ [ ⟨"shows error", 20, 35, false⟩ ] (by decide) (by decide)]
    decide
  · rw [claim_c2.2 _ _ _ _ [ ⟨"shows error", 20, 35, false⟩ ] (by decide) (by decide)]
    decide

theorem findRemovedTests_names (oldTests newTests : List TestBlockInfo) (n : String) :
    n ∈ findRemovedTests oldTests newTests ↔
      (n ∈ oldTests.map (fun t => t.name) ∧ n ∉ newTests.map (fun t => t.name)) := by
  simp [findRemovedTests]
  constructor
  · rintro ⟨t, ⟨hmem, hnot⟩, rfl⟩
    exact ⟨⟨t, hmem, rfl⟩, hnot⟩
  · rintro ⟨⟨t, hmem, rfl⟩, hnot⟩
    exact ⟨t, ⟨hmem, hnot⟩, rfl⟩

theorem analyzeTestFile_removed_part (env : AnalyzerEnv) (absolutePath : String)
    (fd : FileDiff) (oldTests blocks : List TestBlockInfo)
    (hst : fd.status = FileStatus.MODIFIED)
    (hcb : env.currentBlocks absolutePath = some blocks)
    (hob : env.oldBlocks fd.path = some oldTests) :
    ((analyzeTestFile env absolutePath fd true).tests.filter
        (fun t => decide (t.impactType = ImpactType.REMOVED)))
      = (findRemovedTests oldTests blocks).map (fun n =>
          ⟨n, fd.path, ImpactType.REMOVED,
            ((oldTests.find? (fun t => t.name == n)).map (fun t => t.isDynamic)).getD false⟩) := by
  unfold analyzeTestFile
  rw [if_neg (by rw [hst]; decide), hcb]
  dsimp only
  rw [if_pos ⟨rfl, hst⟩, hob]
  rw [List.filter_append]
  have h1 : ((blocks.filter (fun b => hasIntersection b.startLine b.endLine fd.changedLines)).map
      (fun b => (⟨b.name, fd.path, ImpactType.DIRECT, b.isDynamic⟩ : ImpactedTest))).filter
        (fun t => decide (t.impactType = ImpactType.REMOVED)) = [] := by
    apply List.filter_eq_nil_iff.mpr
    intro t ht
    simp at ht
    obtain ⟨b, _, rfl⟩ := ht
    simp
  have h2 : ((findRemovedTests oldTests blocks).map (fun n =>
      (⟨n, fd.path, ImpactType.REMOVED,
        ((oldTests.find? (fun t => t.name == n)).map (fun t => t.isDynamic)).getD false⟩ :
          ImpactedTest))).filter (fun t => decide (t.impactType = ImpactType.REMOVED))
      = (findRemovedTests oldTests blocks).map (fun n =>
          ⟨n, fd.path, ImpactType.REMOVED,
            ((oldTests.find? (fun t => t.name == n)).map (fun t => t.isDynamic)).getD false⟩) := by
    apply List.filter_eq_self.mpr
    intro t ht
    simp at ht
    obtain ⟨b, _, rfl⟩ := ht
    simp
  rw [h1, h2, List.nil_append]

/-- C6: for a MODIFIED test file with parent content available, the tests
reported REMOVED are exactly the name-set difference
`parentNames − currentNames`, each attributed the `isDynamic` flag it had
in the old version; a test whose literal name still occurs in the current
version is never reported as removed. -/
theorem claim_c6 (env : AnalyzerEnv) (absolutePath : String) (fd : FileDiff)
    (oldTests blocks : List TestBlockInfo)
    (hst : fd.status = FileStatus.MODIFIED)
    (hcb : env.currentBlocks absolutePath = some blocks)
    (hob : env.oldBlocks fd.path = some oldTests) :
    ((analyzeTestFile env absolutePath fd true).tests.filter
        (fun t => decide (t.impactType = ImpactType.REMOVED)))
      = (findRemovedTests oldTests blocks).map (fun n =>
          ⟨n, fd.path, ImpactType.REMOVED,
            ((oldTests.find? (fun t => t.name == n)).map (fun t => t.isDynamic)).getD false⟩)
    ∧ (∀ n, n ∈ findRemovedTests oldTests blocks ↔
        (n ∈ oldTests.map (fun t => t.name) ∧ n ∉ blocks.map (fun t => t.name))) :=
  ⟨analyzeTestFile_removed_part env absolutePath fd oldTests blocks hst hcb hob,
    fun n => findRemovedTests_names oldTests blocks n⟩

/-- Witness for C6 at the specification's example: old names `{A, B, C}`,
new names `{A, C}`, removal set exactly `{B}` with its old dynamic flag. -/
theorem claim_c6_witness :
    (((analyzeTestFile
        ⟨[], (fun _ => some [ ⟨"A", 1, 2, false⟩, ⟨"C", 9, 10, false⟩ ]),
          (fun _ => some [ ⟨"A", 1, 2, false⟩, ⟨"B", 3, 4, false⟩, ⟨"C", 5, 6, false⟩ ])⟩
        "r/a.spec.ts" ⟨"a.spec.ts", FileStatus.MODIFIED, []⟩ true).tests.filter
        (fun t => decide (t.impactType = ImpactType.REMOVED)))
      = [ ⟨"B", "a.spec.ts", ImpactType.REMOVED, false⟩ ])
    ∧ ("B" ∈ findRemovedTests
        [ ⟨"A", 1, 2, false⟩, ⟨"B", 3, 4, false⟩, ⟨"C", 5, 6, false⟩ ]
        [ ⟨"A", 1, 2, false⟩, ⟨"C", 9, 10, false⟩ ]
      ↔ ("B" ∈ ([ ⟨"A", 1, 2, false⟩, ⟨"B", 3, 4, false⟩, ⟨"C", 5, 6, false⟩ ] :
            List TestBlockInfo).map (fun t => t.name)
          ∧ "B" ∉ ([ ⟨"A", 1, 2, false⟩, ⟨"C", 9, 10, false⟩ ] :
            List TestBlockInfo).map (fun t => t.name))) := by
  have h := claim_c6
    ⟨[], (fun _ => some [ ⟨"A", 1, 2, false⟩, ⟨"C", 9, 10, false⟩ ]),
      (fun _ => some [ ⟨"A", 1, 2, false⟩, ⟨"B", 3, 4, false⟩, ⟨"C", 5, 6, false⟩ ])⟩
    "r/a.spec.ts" ⟨"a.spec.ts", FileStatus.MODIFIED, []⟩
    [ ⟨"A", 1, 2, false⟩, ⟨"B", 3, 4, false⟩, ⟨"C", 5, 6, false⟩ ]
    [ ⟨"A", 1, 2, false⟩, ⟨"C", 9, 10, false⟩ ] rfl rfl rfl
  exact ⟨by rw [h.1]; decide, h.2 "B"⟩

theorem foldl_add_tests (l : List FileAnalysisResult) (init : Nat) :
    l.foldl (fun sum r => sum + r.tests.length) init
      = init + (l.map (fun r => r.tests.length)).sum := by
  induction l generalizing init with
  | nil => simp
  | cons h t ih => simp [ih]; omega

/-- C8: in every AnalysisReport returned by `analyze`, `totalTestsSelected`
equals the exact sum of `tests.length` over all entries of `fileResults`. -/
theorem claim_c8 (env : AnalyzerEnv) (repoPath commitSha : String)
    (changedFiles : List FileDiff) (hasParent : Bool) :
    (analyze env repoPath commitSha changedFiles hasParent).totalTestsSelected
      = ((analyze env repoPath commitSha changedFiles hasParent).fileResults.map
          (fun r => r.tests.length)).sum := by
  unfold analyze
  dsimp only
  rw [foldl_add_tests]
  omega


theorem analyzeTestFile_status (env : AnalyzerEnv) (absolutePath : String)
    (fd : FileDiff) (hasParent : Bool) :
    (analyzeTestFile env absolutePath fd hasParent).status = fd.status := by
  unfold analyzeTestFile
  by_cases h : fd.status = FileStatus.DELETED
  · rw [if_pos h]
    cases hasParent <;> cases env.oldBlocks fd.path <;> rfl
  · rw [if_neg h]
    cases env.currentBlocks absolutePath <;> rfl

theorem analyzeTestFile_filePath (env : AnalyzerEnv) (absolutePath : String)
    (fd : FileDiff) (hasParent : Bool) :
    (analyzeTestFile env absolutePath fd hasParent).filePath = fd.path := by
  unfold analyzeTestFile
  by_cases h : fd.status = FileStatus.DELETED
  · rw [if_pos h]
    cases hasParent <;> cases env.oldBlocks fd.path <;> rfl
  · rw [if_neg h]
    cases env.currentBlocks absolutePath <;> rfl

theorem depLoop_acc_append (env : AnalyzerEnv) (repoPath : String) (fd : FileDiff) :
    ∀ (tfs : List String) (acc : List FileAnalysisResult) (processed : List String),
      ∃ l, (depLoop env repoPath fd tfs acc processed).1 = acc ++ l := by
  intro tfs
  induction tfs with
  | nil => intro acc processed; exact ⟨[], by simp [depLoop]⟩
  | cons tf rest ih =>
    intro acc processed
    unfold depLoop
    by_cases h1 : tf ∈ processed
    · rw [if_pos h1]; exact ih acc processed
    · rw [if_neg h1]
      by_cases h2 : (analyzeDependentTestFile env repoPath tf fd).tests.length > 0
      · rw [if_pos h2]
        obtain ⟨l, hl⟩ := ih (acc ++ [ analyzeDependentTestFile env repoPath tf fd ]) (tf :: processed)
        exact ⟨analyzeDependentTestFile env repoPath tf fd :: l, by rw [hl]; simp⟩
      · rw [if_neg h2]; exact ih acc processed

theorem analyzeLoop_acc_append (env : AnalyzerEnv) (repoPath : String) (hasParent : Bool) :
    ∀ (changed : List FileDiff) (acc : List FileAnalysisResult) (processed : List String),
      ∃ l, analyzeLoop env repoPath hasParent changed acc processed = acc ++ l := by
  intro changed
  induction changed with
  | nil => intro acc processed; exact ⟨[], by simp [analyzeLoop]⟩
  | cons fd rest ih =>
    intro acc processed
    unfold analyzeLoop
    by_cases h1 : isTestFile fd.path = true
    · rw [if_pos h1]
      by_cases h2 : (analyzeTestFile env (resolvePath repoPath fd.path) fd hasParent).tests.length > 0
          ∨ fd.status = FileStatus.DELETED
      · rw [if_pos h2]
        obtain ⟨l, hl⟩ := ih (acc ++ [ analyzeTestFile env (resolvePath repoPath fd.path) fd hasParent ])
          (resolvePath repoPath fd.path :: processed)
        exact ⟨analyzeTestFile env (resolvePath repoPath fd.path) fd hasParent :: l, by rw [hl]; simp⟩
      · rw [if_neg h2]; exact ih acc processed
    · rw [if_neg h1]
      by_cases h3 : endsWithC (".ts".data) fd.path.data = true ∧ fd.status ≠ FileStatus.DELETED
      · rw [if_pos h3]
        obtain ⟨l1, hl1⟩ := depLoop_acc_append env repoPath fd
          (findDependentTestFiles env.graph (resolvePath repoPath fd.path)) acc processed
        obtain ⟨l2, hl2⟩ := ih _ _
        exact ⟨l1 ++ l2, by rw [hl2, hl1, List.append_assoc]⟩
      · rw [if_neg h3]; exact ih acc processed

theorem analyzeLoop_mem_test_deleted (env : AnalyzerEnv) (repoPath : String) (hasParent : Bool) :
    ∀ (changed : List FileDiff) (acc : List FileAnalysisResult) (processed : List String)
      (fd : FileDiff), fd ∈ changed → isTestFile fd.path = true →
      fd.status = FileStatus.DELETED →
      analyzeTestFile env (resolvePath repoPath fd.path) fd hasParent
        ∈ analyzeLoop env repoPath hasParent changed acc processed := by
  intro changed
  induction changed with
  | nil => intro acc processed fd hmem; cases hmem
  | cons g rest ih =>
    intro acc processed fd hmem htest hdel
    rcases List.mem_cons.mp hmem with rfl | hmem'
    · unfold analyzeLoop
      rw [if_pos htest, if_pos (Or.inr hdel)]
      obtain ⟨l, hl⟩ := analyzeLoop_acc_append env repoPath hasParent rest
        (acc ++ [ analyzeTestFile env (resolvePath repoPath fd.path) fd hasParent ])
        (resolvePath repoPath fd.path :: processed)
      rw [hl]
      simp
    · unfold analyzeLoop
      by_cases h1 : isTestFile g.path = true
      · rw [if_pos h1]
        by_cases h2 : (analyzeTestFile env (resolvePath repoPath g.path) g hasParent).tests.length > 0
            ∨ g.status = FileStatus.DELETED
        · rw [if_pos h2]; exact ih _ _ fd hmem' htest hdel
        · rw [if_neg h2]; exact ih _ _ fd hmem' htest hdel
      · rw [if_neg h1]
        by_cases h3 : endsWithC (".ts".data) g.path.data = true ∧ g.status ≠ FileStatus.DELETED
        · rw [if_pos h3]; exact ih _ _ fd hmem' htest hdel
        · rw [if_neg h3]; exact ih _ _ fd hmem' htest hdel

/-- C9: for a DELETED test file, if parent content is available every
declaration extracted from the parent version becomes an ImpactedTest of
type REMOVED; if no parent content is available the file is reported with
an empty tests list; in both cases the file is still included in
`fileResults` rather than dropped. -/
theorem claim_c9 (env : AnalyzerEnv) (repoPath commitSha absolutePath : String)
    (fd : FileDiff) (hasParent : Bool) (hdel : fd.status = FileStatus.DELETED) :
    (∀ oldTests, hasParent = true → env.oldBlocks fd.path = some oldTests →
        (analyzeTestFile env absolutePath fd hasParent).tests
          = oldTests.map (mkRemoved fd.path))
    ∧ (env.oldBlocks fd.path = none ∨ hasParent = false →
        (analyzeTestFile env absolutePath fd hasParent).tests = [])
    ∧ (analyzeTestFile env absolutePath fd hasParent).filePath = fd.path
    ∧ (analyzeTestFile env absolutePath fd hasParent).status = FileStatus.DELETED
    ∧ (∀ changedFiles, fd ∈ changedFiles → isTestFile fd.path = true →
        analyzeTestFile env (resolvePath repoPath fd.path) fd hasParent
          ∈ (analyze env repoPath commitSha changedFiles hasParent).fileResults) := by
  refine ⟨?_, ?_, analyzeTestFile_filePath env absolutePath fd hasParent,
    by rw [analyzeTestFile_status env absolutePath fd hasParent, hdel], ?_⟩
  · intro oldTests hp hob
    unfold analyzeTestFile
    rw [if_pos hdel, hp, hob]
  · intro hcase
    unfold analyzeTestFile
    rw [if_pos hdel]
    rcases hcase with hob | hp
    · rw [hob]; cases hasParent <;> rfl
    · rw [hp]
  · intro changedFiles hmem htest
    exact analyzeLoop_mem_test_deleted env repoPath hasParent changedFiles [] [] fd hmem htest hdel

/-- Witness for C9: a deleted spec file with two parent tests yields two
REMOVED entries; with no parent content it yields an empty list but is
still present in the report. -/
theorem claim_c9_witness :
    ((analyzeTestFile
        ⟨[], (fun _ => none), (fun p => if p = "d.spec.ts" then
          some [ ⟨"x", 1, 2, false⟩, ⟨"y", 3, 4, true⟩ ] else none)⟩
        "r/d.spec.ts" ⟨"d.spec.ts", FileStatus.DELETED, []⟩ true).tests
      = [ ⟨"x", "d.spec.ts", ImpactType.REMOVED, false⟩,
          ⟨"y", "d.spec.ts", ImpactType.REMOVED, true⟩ ])
    ∧ ((analyzeTestFile ⟨[], (fun _ => none), (fun _ => none)⟩
        "r/d.spec.ts" ⟨"d.spec.ts", FileStatus.DELETED, []⟩ true).tests = [])
    ∧ analyzeTestFile ⟨[], (fun _ => none), (fun _ => none)⟩
        (resolvePath "r" "d.spec.ts") ⟨"d.spec.ts", FileStatus.DELETED, []⟩ true
      ∈ (analyze ⟨[], (fun _ => none), (fun _ => none)⟩ "r" "sha"
          [ ⟨"d.spec.ts", FileStatus.DELETED, []⟩ ] true).fileResults := by
  refine ⟨?_, ?_, ?_⟩
  · rw [(claim_c9 ⟨[], (fun _ => none), (fun p => if p = "d.spec.ts" then
        some [ ⟨"x", 1, 2, false⟩, ⟨"y", 3, 4, true⟩ ] else none)⟩
      "r" "sha" "r/d.spec.ts" ⟨"d.spec.ts", FileStatus.DELETED, []⟩ true rfl).1
      [ ⟨"x", 1, 2, false⟩, ⟨"y", 3, 4, true⟩ ] rfl (by decide)]
    decide
  · exact (claim_c9 ⟨[], (fun _ => none), (fun _ => none)⟩
      "r" "sha" "r/d.spec.ts" ⟨"d.spec.ts", FileStatus.DELETED, []⟩ true rfl).2.1 (Or.inl rfl)
  · exact (claim_c9 ⟨[], (fun _ => none), (fun _ => none)⟩
      "r" "sha" "r/d.spec.ts" ⟨"d.spec.ts", FileStatus.DELETED, []⟩ true rfl).2.2.2.2
      [ ⟨"d.spec.ts", FileStatus.DELETED, []⟩ ] (by decide) (by decide)

theorem depLoop_nonempty_inv (env : AnalyzerEnv) (repoPath : String) (fd : FileDiff) :
    ∀ (tfs : List String) (acc : List FileAnalysisResult) (processed : List String),
      (∀ r ∈ acc, r.status ≠ FileStatus.DELETED → r.tests ≠ []) →
      ∀ r ∈ (depLoop env repoPath fd tfs acc processed).1,
        r.status ≠ FileStatus.DELETED → r.tests ≠ [] := by
  intro tfs
  induction tfs with
  | nil => intro acc processed hacc; simpa [depLoop] using hacc
  | cons tf rest ih =>
    intro acc processed hacc
    unfold depLoop
    by_cases h1 : tf ∈ processed
    · rw [if_pos h1]; exact ih acc processed hacc
    · rw [if_neg h1]
      by_cases h2 : (analyzeDependentTestFile env repoPath tf fd).tests.length > 0
      · rw [if_pos h2]
        refine ih _ _ ?_
        intro r hr
        rcases List.mem_append.mp hr with hr' | hr'
        · exact hacc r hr'
        · intro _
          rw [List.mem_singleton.mp hr']
          intro hnil
          rw [hnil] at h2
          simp at h2
      · rw [if_neg h2]; exact ih acc processed hacc

theorem analyzeLoop_nonempty_inv (env : AnalyzerEnv) (repoPath : String) (hasParent : Bool) :
    ∀ (changed : List FileDiff) (acc : List FileAnalysisResult) (processed : List String),
      (∀ r ∈ acc, r.status ≠ FileStatus.DELETED → r.tests ≠ []) →
      ∀ r ∈ analyzeLoop env repoPath hasParent changed acc processed,
        r.status ≠ FileStatus.DELETED → r.tests ≠ [] := by
  intro changed
  induction changed with
  | nil => intro acc processed hacc; simpa [analyzeLoop] using hacc
  | cons fd rest ih =>
    intro acc processed hacc
    unfold analyzeLoop
    by_cases h1 : isTestFile fd.path = true
    · rw [if_pos h1]
      by_cases h2 : (analyzeTestFile env (resolvePath repoPath fd.path) fd hasParent).tests.length > 0
          ∨ fd.status = FileStatus.DELETED
      · rw [if_pos h2]
        refine ih _ _ ?_
        intro r hr
        rcases List.mem_append.mp hr with hr' | hr'
        · exact hacc r hr'
        · rw [List.mem_singleton.mp hr']
          intro hstat hnil
          rw [analyzeTestFile_status] at hstat
          rcases h2 with h2 | h2
          · rw [hnil] at h2; simp at h2
          · exact hstat h2
      · rw [if_neg h2]; exact ih acc processed hacc
    · rw [if_neg h1]
      by_cases h3 : endsWithC (".ts".data) fd.path.data = true ∧ fd.status ≠ FileStatus.DELETED
      · rw [if_pos h3]
        exact ih _ _ (depLoop_nonempty_inv env repoPath fd _ acc processed hacc)
      · rw [if_neg h3]; exact ih acc processed hacc

/-- C10 (implicit): in every report produced by `analyze`, each
FileAnalysisResult whose status is not DELETED contains at least one
ImpactedTest — files yielding no tests produce no entry at all. -/
theorem claim_c10 (env : AnalyzerEnv) (repoPath commitSha : String)
    (changedFiles : List FileDiff) (hasParent : Bool) :
    ∀ r ∈ (analyze env repoPath commitSha changedFiles hasParent).fileResults,
      r.status ≠ FileStatus.DELETED → r.tests ≠ [] := by
  intro r hr
  exact analyzeLoop_nonempty_inv env repoPath hasParent changedFiles [] []
    (by intro r' hr'; cases hr') r hr

/-- Witness for C10: a modified spec file whose single test intersects the
changed lines yields a non-DELETED result with a non-empty tests list. -/
theorem claim_c10_witness :
    (⟨"a.spec.ts", FileStatus.MODIFIED,
      [ ⟨"t", "a.spec.ts", ImpactType.DIRECT, false⟩ ], false⟩ : FileAnalysisResult).tests
      ≠ [] :=
  claim_c10 ⟨[], (fun p => if p = "r/a.spec.ts" then some [ ⟨"t", 1, 3, false⟩ ] else none),
    (fun _ => none)⟩ "r" "sha" [ ⟨"a.spec.ts", FileStatus.MODIFIED, [ 2 ]⟩ ] false
    ⟨"a.spec.ts", FileStatus.MODIFIED,
      [ ⟨"t", "a.spec.ts", ImpactType.DIRECT, false⟩ ], false⟩ (by decide) (by decide)


/-- First-seen-order deduplication, the order in which a JavaScript `Set`
accumulates values. -/
def firstSeen (l : List String) : List String := l.foldl insertUnique []

theorem jsonTestsFold_tests (fp : String) :
    ∀ (ts : List ImpactedTest) (acc : JsonAcc),
      (ts.foldl (jsonTestsFold fp) acc).tests
        = ((ts.filter (fun t => !t.isDynamic)).map (fun t => t.testName)).foldl
            insertUnique acc.tests := by
  intro ts
  induction ts with
  | nil => intro acc; rfl
  | cons t rest ih =>
    intro acc
    by_cases hd : t.isDynamic = true
    · simp [List.foldl_cons, List.filter_cons, hd, jsonTestsFold, ih]
    · simp only [Bool.not_eq_true] at hd
      simp [List.foldl_cons, List.filter_cons, hd, jsonTestsFold, ih]

theorem jsonFileFold_tests (acc : JsonAcc) (fr : FileAnalysisResult) :
    (jsonFileFold acc fr).tests
      = if fr.hasDynamicTests then acc.tests
        else ((fr.tests.filter (fun t => !t.isDynamic)).map (fun t => t.testName)).foldl
            insertUnique acc.tests := by
  unfold jsonFileFold
  by_cases h : fr.hasDynamicTests = true
  · rw [if_pos h, if_pos h]
  · simp only [Bool.not_eq_true] at h
    rw [h]
    simp only [Bool.false_eq_true, if_false]
    rw [jsonTestsFold_tests]
    by_cases h2 : fr.tests.length > 0
    · rw [if_pos h2]
    · rw [if_neg h2]

theorem jsonFold_tests (frs : List FileAnalysisResult) :
    ∀ (acc : JsonAcc),
      (frs.foldl jsonFileFold acc).tests
        = (((frs.filter (fun fr => !fr.hasDynamicTests)).flatMap
            (fun fr => (fr.tests.filter (fun t => !t.isDynamic)).map
              (fun t => t.testName)))).foldl insertUnique acc.tests := by
  induction frs with
  | nil => intro acc; rfl
  | cons fr rest ih =>
    intro acc
    by_cases h : fr.hasDynamicTests = true
    · simp only [List.foldl_cons, List.filter_cons, h, Bool.not_true, Bool.false_eq_true,
        if_false]
      rw [ih, jsonFileFold_tests, if_pos h]
    · simp only [Bool.not_eq_true] at h
      simp only [List.foldl_cons, List.filter_cons, h, Bool.not_false, if_true]
      rw [ih, jsonFileFold_tests, h]
      simp only [Bool.false_eq_true, if_false, List.flatMap_cons, List.foldl_append]

theorem mem_insertUnique_self (l : List String) (a : String) : a ∈ insertUnique l a := by
  unfold insertUnique
  by_cases h : a ∈ l
  · rwa [if_pos h]
  · rw [if_neg h]; simp

theorem mem_insertUnique_of_mem (l : List String) (a x : String) (h : x ∈ l) :
    x ∈ insertUnique l a := by
  unfold insertUnique
  by_cases h2 : a ∈ l
  · rwa [if_pos h2]
  · rw [if_neg h2]; simp [h]

theorem jsonTestsFold_files (fp : String) :
    ∀ (ts : List ImpactedTest) (acc : JsonAcc),
      (ts.foldl (jsonTestsFold fp) acc).files = acc.files := by
  intro ts
  induction ts with
  | nil => intro acc; rfl
  | cons t rest ih =>
    intro acc
    simp only [List.foldl_cons]
    rw [ih]
    unfold jsonTestsFold
    by_cases hd : t.isDynamic = true
    · rw [if_pos hd]
    · rw [if_neg hd]

theorem jsonTestsFold_dyn_mono (fp : String) :
    ∀ (ts : List ImpactedTest) (acc : JsonAcc) (x : String), x ∈ acc.dynamicFiles →
      x ∈ (ts.foldl (jsonTestsFold fp) acc).dynamicFiles := by
  intro ts
  induction ts with
  | nil => intro acc x hx; exact hx
  | cons t rest ih =>
    intro acc x hx
    simp only [List.foldl_cons]
    apply ih
    unfold jsonTestsFold
    by_cases hd : t.isDynamic = true
    · rw [if_pos hd]
      exact mem_insertUnique_of_mem _ _ _ hx
    · rw [if_neg hd]
      exact hx

theorem jsonFileFold_files_mono (acc : JsonAcc) (fr : FileAnalysisResult) (x : String)
    (hx : x ∈ acc.files) : x ∈ (jsonFileFold acc fr).files := by
  unfold jsonFileFold
  by_cases h : fr.hasDynamicTests = true
  · rw [if_pos h]
    exact mem_insertUnique_of_mem _ _ _ hx
  · rw [if_neg h, jsonTestsFold_files]
    by_cases h2 : fr.tests.length > 0
    · rw [if_pos h2]
      exact mem_insertUnique_of_mem _ _ _ hx
    · rw [if_neg h2]
      exact hx

theorem jsonFileFold_dyn_mono (acc : JsonAcc) (fr : FileAnalysisResult) (x : String)
    (hx : x ∈ acc.dynamicFiles) : x ∈ (jsonFileFold acc fr).dynamicFiles := by
  unfold jsonFileFold
  by_cases h : fr.hasDynamicTests = true
  · rw [if_pos h]
    exact mem_insertUnique_of_mem _ _ _ hx
  · rw [if_neg h]
    apply jsonTestsFold_dyn_mono
    by_cases h2 : fr.tests.length > 0
    · rw [if_pos h2]; exact hx
    · rw [if_neg h2]; exact hx

theorem jsonFold_files_mono (frs : List FileAnalysisResult) :
    ∀ (acc : JsonAcc) (x : String), x ∈ acc.files →
      x ∈ (frs.foldl jsonFileFold acc).files := by
  induction frs with
  | nil => intro acc x hx; exact hx
  | cons fr rest ih =>
    intro acc x hx
    exact ih _ x (jsonFileFold_files_mono acc fr x hx)

theorem jsonFold_dyn_mono (frs : List FileAnalysisResult) :
    ∀ (acc : JsonAcc) (x : String), x ∈ acc.dynamicFiles →
      x ∈ (frs.foldl jsonFileFold acc).dynamicFiles := by
  induction frs with
  | nil => intro acc x hx; exact hx
  | cons fr rest ih =>
    intro acc x hx
    exact ih _ x (jsonFileFold_dyn_mono acc fr x hx)

theorem jsonFold_flagged (frs : List FileAnalysisResult) :
    ∀ (acc : JsonAcc) (fr : FileAnalysisResult), fr ∈ frs → fr.hasDynamicTests = true →
      fr.filePath ∈ (frs.foldl jsonFileFold acc).files
        ∧ fr.filePath ∈ (frs.foldl jsonFileFold acc).dynamicFiles := by
  induction frs with
  | nil => intro acc fr hmem; cases hmem
  | cons g rest ih =>
    intro acc fr hmem hdyn
    simp only [List.foldl_cons]
    rcases List.mem_cons.mp hmem with rfl | hmem'
    · constructor
      · apply jsonFold_files_mono
        unfold jsonFileFold
        rw [if_pos hdyn]
        exact mem_insertUnique_self _ _
      · apply jsonFold_dyn_mono
        unfold jsonFileFold
        rw [if_pos hdyn]
        exact mem_insertUnique_self _ _
    · exact ih _ fr hmem' hdyn

/-- C3 (amended): the JSON `tests` field is exactly the unique non-dynamic
test names of the files NOT flagged `hasDynamicTests`, in first-seen order
(tests of flagged files, dynamic or not, are wholly excluded — File Mode);
every flagged file still appears in `files` and in `filesWithDynamicTests`;
and `grep` is built from exactly the `tests` field, so dynamic names never
reach `grep` either. -/
theorem claim_c3 (report : AnalysisReport) :
    (toJsonOutput report).tests
      = firstSeen ((report.fileResults.filter (fun fr => !fr.hasDynamicTests)).flatMap
          (fun fr => (fr.tests.filter (fun t => !t.isDynamic)).map (fun t => t.testName)))
    ∧ (∀ fr ∈ report.fileResults, fr.hasDynamicTests = true →
        fr.filePath ∈ (toJsonOutput report).files
          ∧ fr.filePath ∈ (toJsonOutput report).filesWithDynamicTests)
    ∧ (toJsonOutput report).grep
      = (if ((toJsonOutput report).tests).length > 0
          then joinBar (((toJsonOutput report).tests).map escapeRegExp) else "") := by
  refine ⟨?_, ?_, rfl⟩
  · unfold toJsonOutput firstSeen
    dsimp only
    rw [jsonFold_tests]
  · intro fr hmem hdyn
    exact jsonFold_flagged report.fileResults ⟨[], [], [], false⟩ fr hmem hdyn

/-- Counterexample to C3 as stated: in a report produced by `analyze`, a
file containing one dynamic and one literal test is flagged, and the
literal (non-dynamic) test's name does NOT appear in the JSON `tests`
field. -/
theorem claim_c3_counterexample :
    ∃ fr ∈ (analyze
        ⟨[ ⟨"r/helper.ts", []⟩, ⟨"r/a.spec.ts", [ "./helper" ]⟩ ],
          (fun p => if p = "r/a.spec.ts" then
            some [ ⟨"lit", 1, 2, false⟩, ⟨"dyn", 3, 4, true⟩ ] else none),
          (fun _ => none)⟩ "r" "sha"
        [ ⟨"helper.ts", FileStatus.MODIFIED, [ 1 ]⟩ ] false).fileResults,
      ∃ t ∈ fr.tests, t.isDynamic = false ∧
        t.testName ∉ (toJsonOutput (analyze
          ⟨[ ⟨"r/helper.ts", []⟩, ⟨"r/a.spec.ts", [ "./helper" ]⟩ ],
            (fun p => if p = "r/a.spec.ts" then
              some [ ⟨"lit", 1, 2, false⟩, ⟨"dyn", 3, 4, true⟩ ] else none),
            (fun _ => none)⟩ "r" "sha"
          [ ⟨"helper.ts", FileStatus.MODIFIED, [ 1 ]⟩ ] false)).tests := by
  decide

/-- Witness for C3's amended statement at a concrete flagged report. -/
theorem claim_c3_witness :
    (toJsonOutput ⟨"sha", "r",
        [ ⟨"f.spec.ts", FileStatus.MODIFIED,
            [ ⟨"d", "f.spec.ts", ImpactType.DIRECT, true⟩ ], true⟩ ], 1⟩).tests
      = firstSeen ((([ ⟨"f.spec.ts", FileStatus.MODIFIED,
            [ ⟨"d", "f.spec.ts", ImpactType.DIRECT, true⟩ ], true⟩ ] :
          List FileAnalysisResult).filter (fun fr => !fr.hasDynamicTests)).flatMap
          (fun fr => (fr.tests.filter (fun t => !t.isDynamic)).map (fun t => t.testName)))
    ∧ ("f.spec.ts" ∈ (toJsonOutput ⟨"sha", "r",
        [ ⟨"f.spec.ts", FileStatus.MODIFIED,
            [ ⟨"d", "f.spec.ts", ImpactType.DIRECT, true⟩ ], true⟩ ], 1⟩).files
      ∧ "f.spec.ts" ∈ (toJsonOutput ⟨"sha", "r",
        [ ⟨"f.spec.ts", FileStatus.MODIFIED,
            [ ⟨"d", "f.spec.ts", ImpactType.DIRECT, true⟩ ], true⟩ ], 1⟩).filesWithDynamicTests) := by
  have h := claim_c3 ⟨"sha", "r",
    [ ⟨"f.spec.ts", FileStatus.MODIFIED,
        [ ⟨"d", "f.spec.ts", ImpactType.DIRECT, true⟩ ], true⟩ ], 1⟩
  exact ⟨h.1, h.2.1 ⟨"f.spec.ts", FileStatus.MODIFIED,
    [ ⟨"d", "f.spec.ts", ImpactType.DIRECT, true⟩ ], true⟩ (by decide) rfl⟩


theorem mem_insertUnique (l : List String) (a x : String) :
    x ∈ insertUnique l a ↔ x ∈ l ∨ x = a := by
  unfold insertUnique
  by_cases h : a ∈ l
  · rw [if_pos h]
    constructor
    · exact Or.inl
    · rintro (hx | rfl)
      · exact hx
      · exact h
  · rw [if_neg h]
    simp

theorem analyzeTestFile_types (env : AnalyzerEnv) (absolutePath : String)
    (fd : FileDiff) (hp : Bool) :
    ∀ t ∈ (analyzeTestFile env absolutePath fd hp).tests,
      t.impactType = ImpactType.DIRECT ∨ t.impactType = ImpactType.REMOVED := by
  intro t ht
  by_cases h : fd.status = FileStatus.DELETED
  · unfold analyzeTestFile at ht
    rw [if_pos h] at ht
    cases hp with
    | true =>
      cases hob : env.oldBlocks fd.path with
      | none =>
        rw [hob] at ht
        simp at ht
      | some oldTests =>
        rw [hob] at ht
        dsimp only at ht
        rw [List.mem_map] at ht
        obtain ⟨b, _, rfl⟩ := ht
        right
        rfl
    | false =>
      cases hob : env.oldBlocks fd.path with
      | none => rw [hob] at ht; simp at ht
      | some oldTests => rw [hob] at ht; simp at ht
  · cases hcb : env.currentBlocks absolutePath with
    | none =>
      unfold analyzeTestFile at ht
      rw [if_neg h, hcb] at ht
      simp at ht
    | some blocks =>
      obtain ⟨removed, heq, hrem⟩ :=
        analyzeTestFile_tests_split env absolutePath fd hp blocks h hcb
      rw [heq] at ht
      rcases List.mem_append.mp ht with ht' | ht'
      · rw [List.mem_map] at ht'
        obtain ⟨b, _, rfl⟩ := ht'
        left
        rfl
      · right
        exact hrem t ht'

theorem analyzeDependentTestFile_filePath (env : AnalyzerEnv) (repoPath tf : String)
    (fd : FileDiff) :
    (analyzeDependentTestFile env repoPath tf fd).filePath = relPath repoPath tf := by
  unfold analyzeDependentTestFile
  cases env.currentBlocks tf <;> rfl

theorem findDirectImporters_subset (g : List ModuleNode) (target : String) :
    ∀ x ∈ findDirectImporters g target, x ∈ g.map (fun n => n.path) := by
  intro x hx
  unfold findDirectImporters at hx
  rw [List.mem_map] at hx
  obtain ⟨sf, hsf, rfl⟩ := hx
  rw [List.mem_filter] at hsf
  exact List.mem_map.mpr ⟨sf, hsf.1, rfl⟩

theorem processImporters_impacted_subset (visited : List String) :
    ∀ (l impacted : List String) (x : String),
      x ∈ (processImporters visited impacted l).1 → x ∈ impacted ∨ x ∈ l := by
  intro l
  induction l with
  | nil => intro impacted x hx; exact Or.inl hx
  | cons imp rest ih =>
    intro impacted x hx
    unfold processImporters at hx
    by_cases h1 : imp ∈ visited
    · rw [if_pos h1] at hx
      rcases ih impacted x hx with h | h
      · exact Or.inl h
      · exact Or.inr (List.mem_cons_of_mem _ h)
    · rw [if_neg h1] at hx
      by_cases h2 : isNodeModulesFile imp = true
      · rw [if_pos h2] at hx
        rcases ih impacted x hx with h | h
        · exact Or.inl h
        · exact Or.inr (List.mem_cons_of_mem _ h)
      · rw [if_neg h2] at hx
        by_cases h3 : isTestFile imp = true
        · rw [if_pos h3] at hx
          rcases ih _ x hx with h | h
          · rcases (mem_insertUnique impacted imp x).mp h with h' | rfl
            · exact Or.inl h'
            · exact Or.inr (List.mem_cons_self _ _)
          · exact Or.inr (List.mem_cons_of_mem _ h)
        · rw [if_neg h3] at hx
          dsimp only at hx
          rcases ih impacted x hx with h | h
          · exact Or.inl h
          · exact Or.inr (List.mem_cons_of_mem _ h)

theorem processImporters_queue_subset (visited : List String) :
    ∀ (l impacted : List String) (x : String),
      x ∈ (processImporters visited impacted l).2 → x ∈ l := by
  intro l
  induction l with
  | nil => intro impacted x hx; cases hx
  | cons imp rest ih =>
    intro impacted x hx
    unfold processImporters at hx
    by_cases h1 : imp ∈ visited
    · rw [if_pos h1] at hx
      exact List.mem_cons_of_mem _ (ih impacted x hx)
    · rw [if_neg h1] at hx
      by_cases h2 : isNodeModulesFile imp = true
      · rw [if_pos h2] at hx
        exact List.mem_cons_of_mem _ (ih impacted x hx)
      · rw [if_neg h2] at hx
        by_cases h3 : isTestFile imp = true
        · rw [if_pos h3] at hx
          exact List.mem_cons_of_mem _ (ih _ x hx)
        · rw [if_neg h3] at hx
          dsimp only at hx
          rcases List.mem_cons.mp hx with rfl | hx'
          · exact List.mem_cons_self _ _
          · exact List.mem_cons_of_mem _ (ih impacted x hx')

theorem bfsAux_impacted_subset (g : List ModuleNode) :
    ∀ (fuel : Nat) (queue visited impacted res : List String),
      bfsAux g fuel queue visited impacted = some res →
      ∀ x ∈ res, x ∈ impacted ∨ x ∈ g.map (fun n => n.path) := by
  intro fuel
  induction fuel with
  | zero =>
    intro queue visited impacted res hres x hx
    cases queue with
    | nil =>
      unfold bfsAux at hres
      rw [Option.some.injEq] at hres
      rw [← hres] at hx
      exact Or.inl hx
    | cons c rest => cases hres
  | succ fuel ih =>
    intro queue visited impacted res hres x hx
    cases queue with
    | nil =>
      unfold bfsAux at hres
      rw [Option.some.injEq] at hres
      rw [← hres] at hx
      exact Or.inl hx
    | cons cur rest =>
      unfold bfsAux at hres
      by_cases h1 : cur ∈ visited
      · rw [if_pos h1] at hres
        exact ih rest visited impacted res hres x hx
      · rw [if_neg h1] at hres
        by_cases h2 : isNodeModulesFile cur = true
        · rw [if_pos h2] at hres
          exact ih rest (cur :: visited) impacted res hres x hx
        · rw [if_neg h2] at hres
          rcases ih _ _ _ res hres x hx with h | h
          · rcases processImporters_impacted_subset (cur :: visited) _ impacted x h with h' | h'
            · exact Or.inl h'
            · exact Or.inr (findDirectImporters_subset g cur x h')
          · exact Or.inr h
      
theorem findDependentTestFiles_subset (g : List ModuleNode) (src : String) :
    ∀ x ∈ findDependentTestFiles g src, x ∈ g.map (fun n => n.path) := by
  intro x hx
  unfold findDependentTestFiles at hx
  cases hres : bfsAux g (bfsFuel g) [ src ] [] [] with
  | none => rw [hres] at hx; cases hx
  | some res =>
    rw [hres] at hx
    rcases bfsAux_impacted_subset g _ _ _ _ res hres x hx with h | h
    · cases h
    · exact h

theorem resolvePath_relPath (repo p : String)
    (h : (repo.data ++ [ '/' ]).isPrefixOf p.data = true) :
    resolvePath repo (relPath repo p) = p := by
  unfold resolvePath relPath
  rw [if_pos h]
  obtain ⟨t, ht⟩ := List.isPrefixOf_iff_prefix.mp h
  show String.mk (repo.data ++ '/' :: p.data.drop (repo.data.length + 1)) = p
  have hlen : repo.data.length + 1 = (repo.data ++ [ '/' ]).length := by simp
  have hd : p.data.drop (repo.data.length + 1) = t := by
    rw [← ht, hlen, List.drop_left]
  rw [hd]
  have : repo.data ++ '/' :: t = p.data := by
    rw [← ht]
    simp
  rw [this]

theorem depLoop_inv (env : AnalyzerEnv) (repoPath : String) (fd : FileDiff) :
    ∀ (tfs : List String) (acc : List FileAnalysisResult) (processed : List String),
      (∀ tf ∈ tfs, (repoPath.data ++ [ '/' ]).isPrefixOf tf.data = true) →
      (∀ r ∈ acc, resolvePath repoPath r.filePath ∈ processed) →
      acc.Pairwise (fun a b =>
        b.tests.any (fun t => decide (t.impactType = ImpactType.DEPENDENCY)) = true →
          resolvePath repoPath a.filePath ≠ resolvePath repoPath b.filePath) →
      ((∀ r ∈ (depLoop env repoPath fd tfs acc processed).1,
          resolvePath repoPath r.filePath ∈ (depLoop env repoPath fd tfs acc processed).2)
        ∧ (depLoop env repoPath fd tfs acc processed).1.Pairwise (fun a b =>
            b.tests.any (fun t => decide (t.impactType = ImpactType.DEPENDENCY)) = true →
              resolvePath repoPath a.filePath ≠ resolvePath repoPath b.filePath)
        ∧ ∀ x ∈ processed, x ∈ (depLoop env repoPath fd tfs acc processed).2) := by
  intro tfs
  induction tfs with
  | nil =>
    intro acc processed _ hkeys hpw
    exact ⟨hkeys, hpw, fun x hx => hx⟩
  | cons tf rest ih =>
    intro acc processed htfs hkeys hpw
    unfold depLoop
    by_cases h1 : tf ∈ processed
    · rw [if_pos h1]
      exact ih acc processed (fun u hu => htfs u (List.mem_cons_of_mem _ hu)) hkeys hpw
    · rw [if_neg h1]
      by_cases h2 : (analyzeDependentTestFile env repoPath tf fd).tests.length > 0
      · rw [if_pos h2]
        have hpre : (repoPath.data ++ [ '/' ]).isPrefixOf tf.data = true :=
          htfs tf (List.mem_cons_self _ _)
        have hkey : resolvePath repoPath (analyzeDependentTestFile env repoPath tf fd).filePath
            = tf := by
          rw [analyzeDependentTestFile_filePath, resolvePath_relPath repoPath tf hpre]
        have hkeys' : ∀ r ∈ acc ++ [ analyzeDependentTestFile env repoPath tf fd ],
            resolvePath repoPath r.filePath ∈ tf :: processed := by
          intro r hr
          rcases List.mem_append.mp hr with hr' | hr'
          · exact List.mem_cons_of_mem _ (hkeys r hr')
          · rw [List.mem_singleton.mp hr', hkey]
            exact List.mem_cons_self _ _
        have hpw' : (acc ++ [ analyzeDependentTestFile env repoPath tf fd ]).Pairwise
            (fun a b =>
              b.tests.any (fun t => decide (t.impactType = ImpactType.DEPENDENCY)) = true →
                resolvePath repoPath a.filePath ≠ resolvePath repoPath b.filePath) := by
          rw [List.pairwise_append]
          refine ⟨hpw, List.pairwise_singleton _ _, ?_⟩
          intro a ha b hb _
          rw [List.mem_singleton.mp hb, hkey]
          intro heq
          exact h1 (heq ▸ hkeys a ha)
        obtain ⟨A, B, C⟩ := ih _ _ (fun u hu => htfs u (List.mem_cons_of_mem _ hu)) hkeys' hpw'
        exact ⟨A, B, fun x hx => C x (List.mem_cons_of_mem _ hx)⟩
      · rw [if_neg h2]
        exact ih acc processed (fun u hu => htfs u (List.mem_cons_of_mem _ hu)) hkeys hpw

theorem analyzeLoop_inv (env : AnalyzerEnv) (repoPath : String) (hasParent : Bool)
    (hg : ∀ n ∈ env.graph, (repoPath.data ++ [ '/' ]).isPrefixOf n.path.data = true) :
    ∀ (changed : List FileDiff) (acc : List FileAnalysisResult) (processed : List String),
      (∀ r ∈ acc, resolvePath repoPath r.filePath ∈ processed) →
      acc.Pairwise (fun a b =>
        b.tests.any (fun t => decide (t.impactType = ImpactType.DEPENDENCY)) = true →
          resolvePath repoPath a.filePath ≠ resolvePath repoPath b.filePath) →
      (analyzeLoop env repoPath hasParent changed acc processed).Pairwise (fun a b =>
        b.tests.any (fun t => decide (t.impactType = ImpactType.DEPENDENCY)) = true →
          resolvePath repoPath a.filePath ≠ resolvePath repoPath b.filePath) := by
  intro changed
  induction changed with
  | nil =>
    intro acc processed _ hpw
    simpa [analyzeLoop] using hpw
  | cons fd rest ih =>
    intro acc processed hkeys hpw
    unfold analyzeLoop
    by_cases h1 : isTestFile fd.path = true
    · rw [if_pos h1]
      by_cases h2 : (analyzeTestFile env (resolvePath repoPath fd.path) fd hasParent).tests.length > 0
          ∨ fd.status = FileStatus.DELETED
      · rw [if_pos h2]
        apply ih
        · intro r hr
          rcases List.mem_append.mp hr with hr' | hr'
          · exact List.mem_cons_of_mem _ (hkeys r hr')
          · rw [List.mem_singleton.mp hr', analyzeTestFile_filePath]
            exact List.mem_cons_self _ _
        · rw [List.pairwise_append]
          refine ⟨hpw, List.pairwise_singleton _ _, ?_⟩
          intro a _ b hb hdep
          exfalso
          rw [List.mem_singleton.mp hb] at hdep
          rw [List.any_eq_true] at hdep
          obtain ⟨t, hmem, hdec⟩ := hdep
          rw [decide_eq_true_iff] at hdec
          rcases analyzeTestFile_types env (resolvePath repoPath fd.path) fd hasParent t hmem
            with h | h <;> rw [hdec] at h <;> cases h
      · rw [if_neg h2]
        exact ih acc processed hkeys hpw
    · rw [if_neg h1]
      by_cases h3 : endsWithC (".ts".data) fd.path.data = true ∧ fd.status ≠ FileStatus.DELETED
      · rw [if_pos h3]
        have htfs : ∀ tf ∈ findDependentTestFiles env.graph (resolvePath repoPath fd.path),
            (repoPath.data ++ [ '/' ]).isPrefixOf tf.data = true := by
          intro tf htf
          have := findDependentTestFiles_subset env.graph (resolvePath repoPath fd.path) tf htf
          rw [List.mem_map] at this
          obtain ⟨n, hn, rfl⟩ := this
          exact hg n hn
        obtain ⟨A, B, _⟩ := depLoop_inv env repoPath fd
          (findDependentTestFiles env.graph (resolvePath repoPath fd.path)) acc processed
          htfs hkeys hpw
        exact ih _ _ A B
      · rw [if_neg h3]
        exact ih acc processed hkeys hpw

/-- C4 (amended): deduplication is guaranteed for dependency-triggered
processing — once a test file has been processed under any trigger, it is
never processed again as a dependency target, so no later
dependency-derived result can share its resolved path with any earlier
result.  (A test file appearing as a changed file in the input is
nevertheless always processed by the test-file branch, even if it was
already processed as a dependent; see the counterexample.) -/
theorem claim_c4 (env : AnalyzerEnv) (repoPath commitSha : String)
    (changedFiles : List FileDiff) (hasParent : Bool)
    (hg : ∀ n ∈ env.graph, (repoPath.data ++ [ '/' ]).isPrefixOf n.path.data = true) :
    (analyze env repoPath commitSha changedFiles hasParent).fileResults.Pairwise
      (fun a b =>
        b.tests.any (fun t => decide (t.impactType = ImpactType.DEPENDENCY)) = true →
          resolvePath repoPath a.filePath ≠ resolvePath repoPath b.filePath) :=
  analyzeLoop_inv env repoPath hasParent hg changedFiles [] []
    (by intro r hr; cases hr) List.Pairwise.nil

/-- Counterexample to C4 as stated: when a changed source file routes to a
dependent spec file that also appears later in the change list, the spec
file is processed twice and the report carries two results for the same
path. -/
theorem claim_c4_counterexample :
    ((analyze
        ⟨[ ⟨"r/helper.ts", []⟩, ⟨"r/a.spec.ts", [ "./helper" ]⟩ ],
          (fun p => if p = "r/a.spec.ts" then some [ ⟨"t1", 1, 3, false⟩ ] else none),
          (fun _ => none)⟩ "r" "sha"
        [ ⟨"helper.ts", FileStatus.MODIFIED, [ 5 ]⟩,
          ⟨"a.spec.ts", FileStatus.MODIFIED, [ 2 ]⟩ ] false).fileResults.filter
        (fun r => r.filePath == "a.spec.ts")).length = 2 := by
  decide

/-- Witness for C4's amended statement at a concrete repository. -/
theorem claim_c4_witness :
    (analyze
        ⟨[ ⟨"r/helper.ts", []⟩, ⟨"r/a.spec.ts", [ "./helper" ]⟩ ],
          (fun p => if p = "r/a.spec.ts" then some [ ⟨"t1", 1, 3, false⟩ ] else none),
          (fun _ => none)⟩ "r" "sha"
        [ ⟨"helper.ts", FileStatus.MODIFIED, [ 5 ]⟩,
          ⟨"a.spec.ts", FileStatus.MODIFIED, [ 2 ]⟩ ] false).fileResults.Pairwise
      (fun a b =>
        b.tests.any (fun t => decide (t.impactType = ImpactType.DEPENDENCY)) = true →
          resolvePath "r" a.filePath ≠ resolvePath "r" b.filePath) :=
  claim_c4 ⟨[ ⟨"r/helper.ts", []⟩, ⟨"r/a.spec.ts", [ "./helper" ]⟩ ],
      (fun p => if p = "r/a.spec.ts" then some [ ⟨"t1", 1, 3, false⟩ ] else none),
      (fun _ => none)⟩ "r" "sha"
    [ ⟨"helper.ts", FileStatus.MODIFIED, [ 5 ]⟩,
      ⟨"a.spec.ts", FileStatus.MODIFIED, [ 2 ]⟩ ] false (by decide)


theorem processImporters_queue_length (visited : List String) :
    ∀ (l impacted : List String),
      (processImporters visited impacted l).2.length ≤ l.length := by
  intro l
  induction l with
  | nil => intro impacted; simp [processImporters]
  | cons imp rest ih =>
    intro impacted
    unfold processImporters
    by_cases h1 : imp ∈ visited
    · rw [if_pos h1]
      exact Nat.le_succ_of_le (ih impacted)
    · rw [if_neg h1]
      by_cases h2 : isNodeModulesFile imp = true
      · rw [if_pos h2]
        exact Nat.le_succ_of_le (ih impacted)
      · rw [if_neg h2]
        by_cases h3 : isTestFile imp = true
        · rw [if_pos h3]
          exact Nat.le_succ_of_le (ih _)
        · rw [if_neg h3]
          dsimp only
          rw [List.length_cons]
          exact Nat.succ_le_succ (ih impacted)

theorem findDirectImporters_length (g : List ModuleNode) (target : String) :
    (findDirectImporters g target).length ≤ g.length := by
  unfold findDirectImporters
  rw [List.length_map]
  exact List.length_filter_le _ _

theorem filter_not_mem_cons (visited : List String) (cur : String) (hnv : cur ∉ visited) :
    ∀ (l : List String), l.Nodup → cur ∈ l →
      (l.filter (fun c => decide (c ∉ cur :: visited))).length + 1
        = (l.filter (fun c => decide (c ∉ visited))).length := by
  intro l
  induction l with
  | nil => intro _ h; cases h
  | cons a t ih =>
    intro hnd hmem
    rw [List.nodup_cons] at hnd
    rcases List.mem_cons.mp hmem with rfl | hmem'
    · rw [List.filter_cons, List.filter_cons]
      have h1 : (decide (cur ∉ cur :: visited)) = false := by simp
      have h2 : (decide (cur ∉ visited)) = true := by simp [hnv]
      rw [h1, h2]
      simp only [Bool.false_eq_true, if_false, if_true, List.length_cons]
      have hft : t.filter (fun c => decide (c ∉ cur :: visited))
          = t.filter (fun c => decide (c ∉ visited)) := by
        apply List.filter_congr
        intro x hx
        have hxa : x ≠ cur := fun he => hnd.1 (he ▸ hx)
        rw [decide_eq_decide]
        simp [List.mem_cons, hxa]
      rw [hft]
    · have hane : a ≠ cur := by
        rintro rfl
        exact hnd.1 hmem'
      rw [List.filter_cons, List.filter_cons]
      have hsame : (decide (a ∉ cur :: visited)) = (decide (a ∉ visited)) := by
        rw [decide_eq_decide]
        simp [List.mem_cons, hane]
      rw [hsame]
      by_cases hkeep : (decide (a ∉ visited)) = true
      · rw [hkeep]
        simp only [if_true, List.length_cons]
        have := ih hnd.2 hmem'
        omega
      · have hkeep' : (decide (a ∉ visited)) = false := by
          revert hkeep
          cases (decide (a ∉ visited)) <;> simp
        rw [hkeep']
        simp only [Bool.false_eq_true, if_false]
        exact ih hnd.2 hmem'

/-- Number of BFS candidates not yet visited; the termination measure of
the queue loop decreases with this count. -/
def unseenCount (cand visited : List String) : Nat :=
  (cand.dedup.filter (fun c => decide (c ∉ visited))).length

theorem unseenCount_cons (cand visited : List String) (cur : String)
    (hmem : cur ∈ cand) (hnv : cur ∉ visited) :
    unseenCount cand (cur :: visited) + 1 = unseenCount cand visited :=
  filter_not_mem_cons visited cur hnv cand.dedup cand.nodup_dedup
    (List.mem_dedup.mpr hmem)

theorem unseenCount_le (cand visited : List String) :
    unseenCount cand visited ≤ cand.length := by
  unfold unseenCount
  exact le_trans (List.length_filter_le _ _) cand.dedup_sublist.length_le

theorem bfsAux_isSome (g : List ModuleNode) (cand : List String)
    (hc : ∀ n ∈ g, n.path ∈ cand) :
    ∀ (fuel : Nat) (queue visited impacted : List String),
      (∀ x ∈ queue, x ∈ cand) →
      queue.length + unseenCount cand visited * (g.length + 1) ≤ fuel →
      (bfsAux g fuel queue visited impacted).isSome = true := by
  intro fuel
  induction fuel with
  | zero =>
    intro queue visited impacted hq hm
    cases queue with
    | nil => rfl
    | cons c rest => simp at hm
  | succ fuel ih =>
    intro queue visited impacted hq hm
    cases queue with
    | nil => rfl
    | cons cur rest =>
      have hcur : cur ∈ cand := hq cur (List.mem_cons_self _ _)
      rw [List.length_cons] at hm
      unfold bfsAux
      by_cases h1 : cur ∈ visited
      · rw [if_pos h1]
        apply ih rest visited impacted (fun x hx => hq x (List.mem_cons_of_mem _ hx))
        generalize hA : unseenCount cand visited * (g.length + 1) = A at hm ⊢
        omega
      · rw [if_neg h1]
        have hu := unseenCount_cons cand visited cur hcur h1
        by_cases h2 : isNodeModulesFile cur = true
        · rw [if_pos h2]
          apply ih rest (cur :: visited) impacted (fun x hx => hq x (List.mem_cons_of_mem _ hx))
          rw [← hu] at hm
          have hexp : (unseenCount cand (cur :: visited) + 1) * (g.length + 1)
              = unseenCount cand (cur :: visited) * (g.length + 1) + (g.length + 1) := by ring
          rw [hexp] at hm
          generalize hA : unseenCount cand (cur :: visited) * (g.length + 1) = A at hm ⊢
          omega
        · rw [if_neg h2]
          apply ih
          · intro x hx
            rcases List.mem_append.mp hx with hx' | hx'
            · exact hq x (List.mem_cons_of_mem _ hx')
            · have h3 := processImporters_queue_subset (cur :: visited) _ impacted x hx'
              have h4 := findDirectImporters_subset g cur x h3
              rw [List.mem_map] at h4
              obtain ⟨n, hn, rfl⟩ := h4
              exact hc n hn
          · rw [List.length_append]
            have hq1 : (processImporters (cur :: visited) impacted
                (findDirectImporters g cur)).2.length ≤ g.length :=
              le_trans (processImporters_queue_length (cur :: visited) _ impacted)
                (findDirectImporters_length g cur)
            rw [← hu] at hm
            have hexp : (unseenCount cand (cur :: visited) + 1) * (g.length + 1)
                = unseenCount cand (cur :: visited) * (g.length + 1) + (g.length + 1) := by ring
            rw [hexp] at hm
            generalize hA : unseenCount cand (cur :: visited) * (g.length + 1) = A at hm ⊢
            omega

theorem bfs_fuel_sufficient (g : List ModuleNode) (src : String) :
    (bfsAux g (bfsFuel g) [ src ] [] []).isSome = true := by
  apply bfsAux_isSome g (src :: g.map (fun n => n.path))
    (fun n hn => List.mem_cons_of_mem _ (List.mem_map.mpr ⟨n, hn, rfl⟩))
  · intro x hx
    rw [List.mem_singleton.mp hx]
    exact List.mem_cons_self _ _
  · have h1 : unseenCount (src :: g.map (fun n => n.path)) [] ≤ g.length + 1 := by
      have h := unseenCount_le (src :: g.map (fun n => n.path)) []
      rw [List.length_cons, List.length_map] at h
      exact h
    have h2 : unseenCount (src :: g.map (fun n => n.path)) [] * (g.length + 1)
        ≤ (g.length + 1) * (g.length + 1) := Nat.mul_le_mul_right _ h1
    unfold bfsFuel
    rw [List.length_singleton]
    generalize hA : unseenCount (src :: g.map (fun n => n.path)) [] * (g.length + 1) = A at h2 ⊢
    generalize hB : (g.length + 1) * (g.length + 1) = B at h2 ⊢
    omega

/-- C7: for every finite import graph, including graphs containing import
cycles, the BFS transitive-importer traversal terminates — the fuel
`bfsFuel g`, justified by the visited set, always suffices for the
embedded queue loop; in particular the cyclic graph Helper1↔Helper2 with a
test importing Helper1 is handled and yields exactly that test. -/
theorem claim_c7 :
    (∀ (g : List ModuleNode) (sourceFilePath : String),
        (bfsAux g (bfsFuel g) [ sourceFilePath ] [] []).isSome = true)
    ∧ findDependentTestFiles
        [ ⟨"r/h1.ts", [ "./h2" ]⟩, ⟨"r/h2.ts", [ "./h1" ]⟩, ⟨"r/t.spec.ts", [ "./h1" ]⟩ ]
        "r/h2.ts" = [ "r/t.spec.ts" ] :=
  ⟨bfs_fuel_sufficient, by decide⟩


theorem parseHunkHeaderChars_render (os : Nat) (oc : Option Nat) (ns : Nat) (nc : Option Nat) :
    parseHunkHeaderChars (hunkHeaderChars os oc ns nc)
      = (List.range (nc.getD 1)).map (fun i => ns + i) := by
  unfold parseHunkHeaderChars
  rw [findHunkMatch_of_matchHunkAt _ _ (matchHunkAt_render os ns oc nc)]
  cases nc with
  | none => simp [parseDigits_renderNat]
  | some b => simp [parseDigits_renderNat]

theorem splitOnChar_ne_nil (sep : Char) : ∀ (l : List Char), splitOnChar sep l ≠ [] := by
  intro l
  induction l with
  | nil => simp [splitOnChar]
  | cons c rest ih =>
    unfold splitOnChar
    cases hs : splitOnChar sep rest with
    | nil => simp
    | cons h t => by_cases hc : c = sep <;> simp [hc]

theorem splitOnChar_no_sep (sep : Char) : ∀ (l : List Char), sep ∉ l →
    splitOnChar sep l = [ l ] := by
  intro l
  induction l with
  | nil => intro _; rfl
  | cons c rest ih =>
    intro h
    unfold splitOnChar
    rw [ih (fun hm => h (List.mem_cons_of_mem _ hm))]
    dsimp only
    rw [if_neg (fun he => h (List.mem_cons.mpr (Or.inl he.symm)))]

theorem splitOnChar_append_cons (sep : Char) : ∀ (l r : List Char), sep ∉ l →
    splitOnChar sep (l ++ sep :: r) = l :: splitOnChar sep r := by
  intro l
  induction l with
  | nil =>
    intro r _
    have hstep : splitOnChar sep (sep :: r) =
        match splitOnChar sep r with
        | [] => [ [] ]
        | h :: t => if sep = sep then [] :: h :: t else (sep :: h) :: t := rfl
    show splitOnChar sep (sep :: r) = [] :: splitOnChar sep r
    cases hs : splitOnChar sep r with
    | nil => exact absurd hs (splitOnChar_ne_nil sep r)
    | cons h t =>
      rw [hstep, hs]
      dsimp only
      rw [if_pos rfl]
  | cons c l2 ih =>
    intro r h
    have hstep : splitOnChar sep (c :: (l2 ++ sep :: r)) =
        match splitOnChar sep (l2 ++ sep :: r) with
        | [] => [ [] ]
        | h :: t => if c = sep then [] :: h :: t else (c :: h) :: t := rfl
    show splitOnChar sep (c :: (l2 ++ sep :: r)) = (c :: l2) :: splitOnChar sep r
    rw [hstep, ih r (fun hm => h (List.mem_cons_of_mem _ hm))]
    dsimp only
    rw [if_neg (fun he => h (List.mem_cons.mpr (Or.inl he.symm)))]

theorem splitOnChar_joinLinesC : ∀ (lines : List (List Char)), lines ≠ [] →
    (∀ l ∈ lines, '\n' ∉ l) → splitOnChar '\n' (joinLinesC lines) = lines := by
  intro lines
  induction lines with
  | nil => intro h; cases h rfl
  | cons l rest ih =>
    intro _ hnl
    cases rest with
    | nil =>
      show splitOnChar '\n' l = [ l ]
      exact splitOnChar_no_sep '\n' l (hnl l (List.mem_cons_self _ _))
    | cons l2 rest2 =>
      show splitOnChar '\n' (l ++ '\n' :: joinLinesC (l2 :: rest2)) = l :: l2 :: rest2
      rw [splitOnChar_append_cons '\n' l _ (hnl l (List.mem_cons_self _ _))]
      rw [ih (by simp) (fun x hx => hnl x (List.mem_cons_of_mem _ hx))]

theorem trimC_ne_nil (line : List Char) (c : Char) (h : line.head? = some c)
    (hc : isWSChar c = false) : (trimC line).isEmpty = false := by
  cases line with
  | nil => cases h
  | cons a rest =>
    have ha : a = c := by simpa using h
    subst ha
    unfold trimC
    rw [List.dropWhile_cons]
    simp only [hc, Bool.false_eq_true, if_false]
    have hmem : a ∈ (a :: rest).reverse := by simp
    simp only [List.isEmpty_eq_false, ne_eq, List.reverse_eq_nil_iff]
    intro hd
    rw [List.dropWhile_eq_nil_iff] at hd
    simp [hd a hmem] at hc

theorem dropLit_ne_head (p cs : List Char) (cp c : Char)
    (hp : p.head? = some cp) (hc : cs.head? = some c) (hne : cp ≠ c) :
    dropLit p cs = none := by
  cases p with
  | nil => cases hp
  | cons a ps =>
    cases cs with
    | nil => cases hc
    | cons b cst =>
      have ha : a = cp := by simpa using hp
      have hb : b = c := by simpa using hc
      subst ha
      subst hb
      unfold dropLit
      rw [if_neg (fun he => hne he.symm)]

theorem splitsOn_nil_of_not_mem (sep : List Char) (c0 : Char) (hsep : sep.head? = some c0) :
    ∀ (cs : List Char), c0 ∉ cs → splitsOn sep cs = [] := by
  intro cs
  induction cs with
  | nil => intro _; rfl
  | cons c rest ih =>
    intro h
    unfold splitsOn
    have h1 : sep.isPrefixOf (c :: rest) = false := by
      cases sep with
      | nil => cases hsep
      | cons s0 st =>
        have hs0 : s0 = c0 := by simpa using hsep
        have hne : s0 ≠ c := fun he => h (List.mem_cons.mpr (Or.inl (hs0.symm.trans he)))
        simp [List.isPrefixOf, hne]
    simp only [h1, Bool.false_eq_true, if_false, List.nil_append]
    rw [ih (fun hm => h (List.mem_cons_of_mem _ hm))]
    rfl

theorem splitsOn_exact (sep : List Char) (c0 : Char) (hsep : sep.head? = some c0) :
    ∀ (l r : List Char), c0 ∉ l → c0 ∉ (sep.drop 1 ++ r) →
      splitsOn sep (l ++ (sep ++ r)) = [ (l, r) ] := by
  intro l
  induction l with
  | nil =>
    intro r _ hrest
    cases sep with
    | nil => cases hsep
    | cons s0 st =>
      have hs0 : s0 = c0 := by simpa using hsep
      subst hs0
      have hrest' : s0 ∉ st ++ r := by simpa using hrest
      show splitsOn (s0 :: st) (s0 :: (st ++ r)) = [ (([] : List Char), r) ]
      have hstep : splitsOn (s0 :: st) (s0 :: (st ++ r)) =
          (if (s0 :: st).isPrefixOf (s0 :: (st ++ r)) then
            [ (([] : List Char), (s0 :: (st ++ r)).drop (s0 :: st).length) ] else [])
            ++ (splitsOn (s0 :: st) (st ++ r)).map (fun pr => (s0 :: pr.1, pr.2)) := rfl
      rw [hstep]
      have hpre : (s0 :: st).isPrefixOf (s0 :: (st ++ r)) = true := by
        apply List.isPrefixOf_iff_prefix.mpr
        exact ⟨r, by simp⟩
      rw [if_pos hpre]
      have hdrop : (s0 :: (st ++ r)).drop (s0 :: st).length = r := by
        rw [List.length_cons, List.drop_succ_cons, List.drop_left]
      rw [hdrop]
      rw [splitsOn_nil_of_not_mem (s0 :: st) s0 rfl (st ++ r) hrest']
      rfl
  | cons c l2 ih =>
    intro r hl hrest
    have hcne : c ≠ c0 := fun he => hl (List.mem_cons.mpr (Or.inl he.symm))
    show splitsOn sep (c :: (l2 ++ (sep ++ r))) = [ (c :: l2, r) ]
    have hstep : splitsOn sep (c :: (l2 ++ (sep ++ r))) =
        (if sep.isPrefixOf (c :: (l2 ++ (sep ++ r))) then
          [ (([] : List Char), (c :: (l2 ++ (sep ++ r))).drop sep.length) ] else [])
          ++ (splitsOn sep (l2 ++ (sep ++ r))).map (fun pr => (c :: pr.1, pr.2)) := rfl
    rw [hstep]
    have h1 : sep.isPrefixOf (c :: (l2 ++ (sep ++ r))) = false := by
      cases sep with
      | nil => cases hsep
      | cons s0 st =>
        have hs0 : s0 = c0 := by simpa using hsep
        have hne2 : s0 ≠ c := fun he => hcne (by rw [← hs0, ← he])
        simp [List.isPrefixOf, hne2]
    rw [if_neg (by rw [h1]; exact Bool.false_ne_true)]
    rw [ih r (fun hm => hl (List.mem_cons_of_mem _ hm)) hrest]
    rfl


/-- A path as it appears in real git machine output for this repository:
non-empty and free of spaces, tabs and newlines. -/
def goodPath (s : String) : Prop :=
  s.data ≠ [] ∧ ' ' ∉ s.data ∧ '\t' ∉ s.data ∧ '\n' ∉ s.data

instance (s : String) : Decidable (goodPath s) := by
  unfold goodPath
  infer_instance

/-- A raw line that the diff-scanning loop ignores: it is neither a
`diff --git` file header nor a hunk header (and contains no newline, so it
survives line splitting intact). -/
def skippedLine (l : List Char) : Prop :=
  '\n' ∉ l ∧ parseFileHeaderLine l = none ∧ startsWithC ("@@".data) l = false

instance (l : List Char) : Decidable (skippedLine l) := by
  unfold skippedLine
  infer_instance

/-- A name-status code column as git prints it (`A`, `M`, `D`, `R<score>`,
…): its first character identifies the status and it contains no tab or
newline. -/
def goodCode (s : String) : Prop :=
  (s.data.head? = some 'A' ∨ s.data.head? = some 'M'
    ∨ s.data.head? = some 'D' ∨ s.data.head? = some 'R')
  ∧ '\t' ∉ s.data ∧ '\n' ∉ s.data

instance (s : String) : Decidable (goodCode s) := by
  unfold goodCode
  infer_instance

/-- Well-formedness of one modelled `git show` file section, matching what
git actually prints: good paths and code, and every metadata or hunk body
line is one the diff loop skips. -/
def goodEntry (f : CommitFile) : Prop :=
  goodPath f.oldPath ∧ goodPath f.newPath ∧ goodCode f.code ∧
  (∀ l ∈ f.meta, skippedLine l) ∧ (∀ hb ∈ f.hunks, ∀ l ∈ hb.body, skippedLine l)

instance (f : CommitFile) : Decidable (goodEntry f) := by
  unfold goodEntry
  infer_instance

theorem parseFileHeaderLine_render (oldPath newPath : String)
    (ho : goodPath oldPath) (hn : goodPath newPath) :
    parseFileHeaderLine (diffHdrLit ++ (oldPath.data ++ (bSepLit ++ newPath.data)))
      = some newPath := by
  unfold parseFileHeaderLine
  rw [dropLit_append]
  dsimp only
  have hsep : bSepLit.head? = some ' ' := rfl
  rw [splitsOn_exact bSepLit ' ' hsep oldPath.data newPath.data ho.2.1 ?hrest]
  case hrest =>
    intro hmem
    rcases List.mem_append.mp hmem with hm | hm
    · revert hm
      decide
    · exact hn.2.1 hm
  have h1 : oldPath.data.isEmpty = false := by
    cases hd : oldPath.data with
    | nil => exact absurd hd ho.1
    | cons a t => rfl
  have h2 : newPath.data.isEmpty = false := by
    cases hd : newPath.data with
    | nil => exact absurd hd hn.1
    | cons a t => rfl
  simp only [List.filter_cons, List.filter_nil, h1, h2, Bool.not_false, Bool.and_self,
    if_true, List.getLast?_singleton]

theorem parseFileHeaderLine_of_head (line : List Char) (c : Char)
    (hc : line.head? = some c) (hne : c ≠ 'd') :
    parseFileHeaderLine line = none := by
  unfold parseFileHeaderLine
  rw [dropLit_ne_head diffHdrLit line 'd' c rfl hc (fun he => hne he.symm)]

theorem head_hunkHeaderChars (os : Nat) (oc : Option Nat) (ns : Nat) (nc : Option Nat) :
    (hunkHeaderChars os oc ns nc).head? = some '@' := rfl

theorem startsWith_atat_hunk (os : Nat) (oc : Option Nat) (ns : Nat) (nc : Option Nat) :
    startsWithC ("@@".data) (hunkHeaderChars os oc ns nc) = true := rfl

theorem stepDiffLine_skip (statuses : String → Option FileStatus) (st : DiffLoopState)
    (line : List Char) (h : skippedLine line) :
    stepDiffLine statuses st line = st := by
  unfold stepDiffLine
  rw [h.2.1]
  dsimp only
  rw [h.2.2]
  rfl

theorem stepDiffLine_hunk (statuses : String → Option FileStatus) (st : DiffLoopState)
    (os : Nat) (oc : Option Nat) (ns : Nat) (nc : Option Nat) :
    stepDiffLine statuses st (hunkHeaderChars os oc ns nc)
      = ⟨st.currentFile,
          st.currentChangedLines ++ (List.range (nc.getD 1)).map (fun i => ns + i),
          st.results⟩ := by
  unfold stepDiffLine
  rw [parseFileHeaderLine_of_head _ '@' (head_hunkHeaderChars os oc ns nc) (by decide)]
  dsimp only
  rw [if_pos (startsWith_atat_hunk os oc ns nc)]
  rw [parseHunkHeaderChars_render]

theorem stepDiffLine_header (statuses : String → Option FileStatus) (st : DiffLoopState)
    (f : CommitFile) (ho : goodPath f.oldPath) (hn : goodPath f.newPath) :
    stepDiffLine statuses st (renderHeaderLine f)
      = ⟨some f.newPath, [], flushDiffState statuses st⟩ := by
  unfold stepDiffLine renderHeaderLine
  rw [parseFileHeaderLine_render f.oldPath f.newPath ho hn]


theorem isPrefixOf_cons_ne (x : Char) (xs : List Char) (c : Char) (l : List Char)
    (hne : x ≠ c) : List.isPrefixOf (x :: xs) (c :: l) = false := by
  show ((x == c) && List.isPrefixOf xs l) = false
  rw [beq_eq_false_iff_ne.mpr hne, Bool.false_and]

theorem skipStatusLine_of_head (l : List Char) (c : Char) (hh : l.head? = some c)
    (h1 : c ≠ 'd') (h2 : c ≠ '@') (h3 : c ≠ 'i') (h4 : c ≠ '-') (h5 : c ≠ '+')
    (h6 : c ≠ '\\') : skipStatusLine l = false := by
  cases l with
  | nil => cases hh
  | cons a rest =>
    have ha : a = c := by simpa using hh
    subst ha
    have p1 : List.isPrefixOf ("diff ".data) (a :: rest) = false :=
      isPrefixOf_cons_ne 'd' ("iff ".data) a rest (fun he => h1 he.symm)
    have p2 : List.isPrefixOf ("@@".data) (a :: rest) = false :=
      isPrefixOf_cons_ne '@' ("@".data) a rest (fun he => h2 he.symm)
    have p3 : List.isPrefixOf ("index ".data) (a :: rest) = false :=
      isPrefixOf_cons_ne 'i' ("ndex ".data) a rest (fun he => h3 he.symm)
    have p4 : List.isPrefixOf ("---".data) (a :: rest) = false :=
      isPrefixOf_cons_ne '-' ("--".data) a rest (fun he => h4 he.symm)
    have p5 : List.isPrefixOf ("+++".data) (a :: rest) = false :=
      isPrefixOf_cons_ne '+' ("++".data) a rest (fun he => h5 he.symm)
    have p6 : List.isPrefixOf ("+".data) (a :: rest) = false :=
      isPrefixOf_cons_ne '+' [] a rest (fun he => h5 he.symm)
    have p7 : List.isPrefixOf ("-".data) (a :: rest) = false :=
      isPrefixOf_cons_ne '-' [] a rest (fun he => h4 he.symm)
    have p8 : List.isPrefixOf ("\\".data) (a :: rest) = false :=
      isPrefixOf_cons_ne '\\' [] a rest (fun he => h6 he.symm)
    simp [skipStatusLine, startsWithC, p1, p2, p3, p4, p5, p6, p7, p8]

theorem head?_append_of_some (l r : List Char) (c : Char) (h : l.head? = some c) :
    (l ++ r).head? = some c := by
  cases l with
  | nil => cases h
  | cons a t => simpa using h

theorem not_mem_renderNat_newline (n : Nat) : '\n' ∉ renderNat n :=
  fun h => absurd (renderNat_all_digits n '\n' h) (by decide)

theorem not_mem_renderOptCount_newline (o : Option Nat) : '\n' ∉ renderOptCount o := by
  cases o with
  | none => simp [renderOptCount]
  | some k =>
    intro h
    rcases List.mem_cons.mp h with he | hm
    · exact absurd he (by decide)
    · exact not_mem_renderNat_newline k hm

theorem not_newline_hunk (os : Nat) (oc : Option Nat) (ns : Nat) (nc : Option Nat) :
    '\n' ∉ hunkHeaderChars os oc ns nc := by
  unfold hunkHeaderChars
  intro h
  simp only [List.mem_append] at h
  rcases h with h | h | h | h | h | h | h
  · revert h; decide
  · exact not_mem_renderNat_newline os h
  · exact not_mem_renderOptCount_newline oc h
  · revert h; decide
  · exact not_mem_renderNat_newline ns h
  · exact not_mem_renderOptCount_newline nc h
  · revert h; decide

theorem not_newline_renderHeaderLine (f : CommitFile) (ho : goodPath f.oldPath)
    (hn : goodPath f.newPath) : '\n' ∉ renderHeaderLine f := by
  unfold renderHeaderLine
  intro h
  simp only [List.mem_append] at h
  rcases h with h | h | h | h
  · revert h; decide
  · exact ho.2.2.2 h
  · revert h; decide
  · exact hn.2.2.2 h

theorem not_newline_entryLines (f : CommitFile) (hf : goodEntry f) :
    ∀ l ∈ renderEntryLines f, '\n' ∉ l := by
  intro l hl
  unfold renderEntryLines at hl
  rcases List.mem_cons.mp hl with rfl | hl'
  · exact not_newline_renderHeaderLine f hf.1 hf.2.1
  · rcases List.mem_append.mp hl' with hm | hm
    · exact (hf.2.2.2.1 l hm).1
    · rw [List.mem_flatMap] at hm
      obtain ⟨hb, hhb, hlb⟩ := hm
      unfold renderHunkBlock at hlb
      rcases List.mem_cons.mp hlb with rfl | hlb'
      · exact not_newline_hunk _ _ _ _
      · exact (hf.2.2.2.2 hb hhb l hlb').1

theorem not_newline_renderStatusLine (f : CommitFile) (hf : goodEntry f) :
    '\n' ∉ renderStatusLine f := by
  unfold renderStatusLine
  by_cases hR : startsWithC ("R".data) f.code.data = true
  · rw [if_pos hR]
    intro h
    rcases List.mem_append.mp h with hm | hm
    · exact hf.2.2.1.2.2 hm
    · rcases List.mem_cons.mp hm with he | hm2
      · exact absurd he (by decide)
      · rcases List.mem_append.mp hm2 with hm3 | hm3
        · exact hf.1.2.2.2 hm3
        · rcases List.mem_cons.mp hm3 with he | hm4
          · exact absurd he (by decide)
          · exact hf.2.1.2.2.2 hm4
  · rw [if_neg hR]
    intro h
    rcases List.mem_append.mp h with hm | hm
    · exact hf.2.2.1.2.2 hm
    · rcases List.mem_cons.mp hm with he | hm2
      · exact absurd he (by decide)
      · exact hf.2.1.2.2.2 hm2

theorem statusHead_cases (f : CommitFile) (hf : goodEntry f) :
    ∃ c, f.code.data.head? = some c ∧ (c = 'A' ∨ c = 'M' ∨ c = 'D' ∨ c = 'R') := by
  rcases hf.2.2.1.1 with h | h | h | h
  · exact ⟨'A', h, Or.inl rfl⟩
  · exact ⟨'M', h, Or.inr (Or.inl rfl)⟩
  · exact ⟨'D', h, Or.inr (Or.inr (Or.inl rfl))⟩
  · exact ⟨'R', h, Or.inr (Or.inr (Or.inr rfl))⟩

theorem head_renderStatusLine (f : CommitFile) (c : Char)
    (hc : f.code.data.head? = some c) :
    (renderStatusLine f).head? = some c := by
  unfold renderStatusLine
  by_cases hR : startsWithC ("R".data) f.code.data = true
  · rw [if_pos hR]
    exact head?_append_of_some _ _ c hc
  · rw [if_neg hR]
    exact head?_append_of_some _ _ c hc

theorem skipStatusLine_render (f : CommitFile) (hf : goodEntry f) :
    skipStatusLine (renderStatusLine f) = false := by
  obtain ⟨c, hc, hcases⟩ := statusHead_cases f hf
  have hl := head_renderStatusLine f c hc
  rcases hcases with rfl | rfl | rfl | rfl <;>
    exact skipStatusLine_of_head _ _ hl (by decide) (by decide) (by decide) (by decide)
      (by decide) (by decide)

theorem trim_renderStatusLine (f : CommitFile) (hf : goodEntry f) :
    (!(trimC (renderStatusLine f)).isEmpty) = true := by
  obtain ⟨c, hc, hcases⟩ := statusHead_cases f hf
  have hl := head_renderStatusLine f c hc
  have : (trimC (renderStatusLine f)).isEmpty = false := by
    apply trimC_ne_nil _ c hl
    rcases hcases with rfl | rfl | rfl | rfl <;> decide
  rw [this]
  rfl


/-- The path→status map denoted by a commit's name-status rows: later rows
shadow earlier ones, as with `Map.prototype.set`. -/
def statusMapOf (fs : List CommitFile) : String → Option FileStatus :=
  fs.foldl (fun m f => fun x =>
    if x = f.newPath then some (statusFromChar f.code.data.head?) else m x) (fun _ => none)

theorem statusLineStep_render (m : String → Option FileStatus) (f : CommitFile)
    (hf : goodEntry f) :
    statusLineStep m (renderStatusLine f)
      = fun x => if x = f.newPath then some (statusFromChar f.code.data.head?) else m x := by
  have hskip := skipStatusLine_render f hf
  have hct : '\t' ∉ f.code.data := hf.2.2.1.2.1
  have hnt : '\t' ∉ f.newPath.data := hf.2.1.2.2.1
  have hot : '\t' ∉ f.oldPath.data := hf.1.2.2.1
  have hnn : f.newPath.data ≠ [] := hf.2.1.1
  unfold statusLineStep
  rw [if_neg (by rw [hskip]; exact Bool.false_ne_true)]
  by_cases hR : startsWithC ("R".data) f.code.data = true
  · have hline : renderStatusLine f
        = f.code.data ++ '\t' :: (f.oldPath.data ++ '\t' :: f.newPath.data) := by
      unfold renderStatusLine
      rw [if_pos hR]
    rw [hline]
    have hsplit : splitOnChar '\t' (f.code.data ++ '\t' :: (f.oldPath.data ++ '\t' :: f.newPath.data))
        = [ f.code.data, f.oldPath.data, f.newPath.data ] := by
      rw [splitOnChar_append_cons '\t' _ _ hct, splitOnChar_append_cons '\t' _ _ hot,
        splitOnChar_no_sep '\t' _ hnt]
    rw [hsplit]
    rw [if_pos (show (2:Nat) ≤ ([ f.code.data, f.oldPath.data, f.newPath.data ]).length by simp)]
    have hpath : (if (3:Nat) ≤ ([ f.code.data, f.oldPath.data, f.newPath.data ]).length
        then ([ f.code.data, f.oldPath.data, f.newPath.data ]).getD 2 []
        else ([ f.code.data, f.oldPath.data, f.newPath.data ]).getD 1 [])
        = f.newPath.data := by
      rw [if_pos (by simp)]
      rfl
    rw [hpath]
    rw [if_neg hnn]
    rfl
  · have hline : renderStatusLine f = f.code.data ++ '\t' :: f.newPath.data := by
      unfold renderStatusLine
      rw [if_neg hR]
    rw [hline]
    have hsplit : splitOnChar '\t' (f.code.data ++ '\t' :: f.newPath.data)
        = [ f.code.data, f.newPath.data ] := by
      rw [splitOnChar_append_cons '\t' _ _ hct, splitOnChar_no_sep '\t' _ hnt]
    rw [hsplit]
    rw [if_pos (show (2:Nat) ≤ ([ f.code.data, f.newPath.data ]).length by simp)]
    have hpath : (if (3:Nat) ≤ ([ f.code.data, f.newPath.data ]).length
        then ([ f.code.data, f.newPath.data ]).getD 2 []
        else ([ f.code.data, f.newPath.data ]).getD 1 [])
        = f.newPath.data := by
      rw [if_neg (by simp)]
      rfl
    rw [hpath]
    rw [if_neg hnn]
    rfl

theorem foldl_statusLineStep (fs : List CommitFile) :
    ∀ (m : String → Option FileStatus), (∀ f ∈ fs, goodEntry f) →
      (fs.map renderStatusLine).foldl statusLineStep m
        = fs.foldl (fun m f => fun x =>
            if x = f.newPath then some (statusFromChar f.code.data.head?) else m x) m := by
  induction fs with
  | nil => intro m _; rfl
  | cons f rest ih =>
    intro m hwf
    simp only [List.map_cons, List.foldl_cons]
    rw [statusLineStep_render m f (hwf f (List.mem_cons_self _ _))]
    exact ih _ (fun g hg => hwf g (List.mem_cons_of_mem _ hg))

theorem parseStatusLines_render (fs : List CommitFile) (hwf : ∀ f ∈ fs, goodEntry f) :
    parseStatusLines (renderNameStatus fs).data = statusMapOf fs := by
  unfold parseStatusLines renderNameStatus statusMapOf
  show ((splitOnChar '\n' (joinLinesC (fs.map renderStatusLine))).filter
      (fun l => !(trimC l).isEmpty)).foldl statusLineStep (fun _ => none) = _
  cases fs with
  | nil => rfl
  | cons f rest =>
    rw [splitOnChar_joinLinesC _ (by simp) (by
      intro l hl
      rw [List.mem_map] at hl
      obtain ⟨g, hg, rfl⟩ := hl
      exact not_newline_renderStatusLine g (hwf g hg))]
    rw [List.filter_eq_self.mpr (by
      intro l hl
      rw [List.mem_map] at hl
      obtain ⟨g, hg, rfl⟩ := hl
      exact trim_renderStatusLine g (hwf g hg))]
    exact foldl_statusLineStep (f :: rest) (fun _ => none) hwf

theorem foldl_stepDiffLine_skipped (statuses : String → Option FileStatus) :
    ∀ (lines : List (List Char)) (st : DiffLoopState), (∀ l ∈ lines, skippedLine l) →
      lines.foldl (stepDiffLine statuses) st = st := by
  intro lines
  induction lines with
  | nil => intro st _; rfl
  | cons l rest ih =>
    intro st h
    rw [List.foldl_cons, stepDiffLine_skip statuses st l (h l (List.mem_cons_self _ _))]
    exact ih st (fun x hx => h x (List.mem_cons_of_mem _ hx))

theorem foldl_stepDiffLine_hunks (statuses : String → Option FileStatus) :
    ∀ (hunks : List HunkBlock) (cf : Option String) (L : List Nat) (R : List FileDiff),
      (∀ hb ∈ hunks, ∀ l ∈ hb.body, skippedLine l) →
      (hunks.flatMap renderHunkBlock).foldl (stepDiffLine statuses) ⟨cf, L, R⟩
        = ⟨cf, L ++ hunks.flatMap (fun hb => hunkNewLines hb.info), R⟩ := by
  intro hunks
  induction hunks with
  | nil => intro cf L R _; simp
  | cons hb rest ih =>
    intro cf L R h
    rw [List.flatMap_cons, List.foldl_append]
    have hhead : (renderHunkBlock hb).foldl (stepDiffLine statuses) ⟨cf, L, R⟩
        = ⟨cf, L ++ hunkNewLines hb.info, R⟩ := by
      unfold renderHunkBlock
      rw [List.foldl_cons, stepDiffLine_hunk]
      rw [foldl_stepDiffLine_skipped statuses hb.body _ (h hb (List.mem_cons_self _ _))]
      rfl
    rw [hhead, ih cf _ R (fun b hbm => h b (List.mem_cons_of_mem _ hbm))]
    rw [List.flatMap_cons, List.append_assoc]

theorem foldl_stepDiffLine_entry (statuses : String → Option FileStatus) (f : CommitFile)
    (hf : goodEntry f) (st : DiffLoopState) :
    (renderEntryLines f).foldl (stepDiffLine statuses) st
      = ⟨some f.newPath, entryChangedLines f, flushDiffState statuses st⟩ := by
  unfold renderEntryLines
  rw [List.foldl_cons, stepDiffLine_header statuses st f hf.1 hf.2.1]
  rw [List.foldl_append]
  rw [foldl_stepDiffLine_skipped statuses f.meta _ hf.2.2.2.1]
  rw [foldl_stepDiffLine_hunks statuses f.hunks _ _ _ hf.2.2.2.2]
  rfl

theorem foldl_stepDiffLine_entries (statuses : String → Option FileStatus) :
    ∀ (fs : List CommitFile) (st : DiffLoopState), (∀ f ∈ fs, goodEntry f) →
      flushDiffState statuses ((fs.flatMap renderEntryLines).foldl (stepDiffLine statuses) st)
        = flushDiffState statuses st
          ++ fs.map (fun f => ⟨f.newPath, (statuses f.newPath).getD FileStatus.MODIFIED,
              entryChangedLines f⟩) := by
  intro fs
  induction fs with
  | nil => intro st _; simp
  | cons f rest ih =>
    intro st hwf
    rw [List.flatMap_cons, List.foldl_append]
    rw [foldl_stepDiffLine_entry statuses f (hwf f (List.mem_cons_self _ _)) st]
    rw [ih _ (fun g hg => hwf g (List.mem_cons_of_mem _ hg))]
    rw [List.map_cons]
    show flushDiffState statuses st
        ++ [ ⟨f.newPath, (statuses f.newPath).getD FileStatus.MODIFIED, entryChangedLines f⟩ ]
        ++ _ = _
    rw [List.append_assoc]
    rfl

theorem getChangedFiles_render (fs : List CommitFile) (hwf : ∀ f ∈ fs, goodEntry f) :
    getChangedFiles (renderRawDiff fs) (renderNameStatus fs)
      = fs.map (fun f => ⟨f.newPath, ((statusMapOf fs) f.newPath).getD FileStatus.MODIFIED,
          entryChangedLines f⟩) := by
  unfold getChangedFiles renderRawDiff
  rw [parseStatusLines_render fs hwf]
  show flushDiffState (statusMapOf fs)
      ((splitOnChar '\n' (joinLinesC (fs.flatMap renderEntryLines))).foldl
        (stepDiffLine (statusMapOf fs)) ⟨none, [], []⟩) = _
  cases fs with
  | nil => rfl
  | cons f rest =>
    rw [splitOnChar_joinLinesC _ (by simp [renderEntryLines]) (by
      intro l hl
      rw [List.mem_flatMap] at hl
      obtain ⟨g, hg, hlg⟩ := hl
      exact not_newline_entryLines g (hwf g hg) l hlg)]
    rw [foldl_stepDiffLine_entries (statusMapOf (f :: rest)) (f :: rest) ⟨none, [], []⟩ hwf]
    rfl


theorem statusFold_notmem (fs : List CommitFile) :
    ∀ (m : String → Option FileStatus) (x : String), x ∉ fs.map (fun f => f.newPath) →
      (fs.foldl (fun m f => fun x =>
        if x = f.newPath then some (statusFromChar f.code.data.head?) else m x) m) x = m x := by
  induction fs with
  | nil => intro m x _; rfl
  | cons f rest ih =>
    intro m x hx
    simp only [List.map_cons, List.mem_cons, not_or] at hx
    rw [List.foldl_cons]
    rw [ih _ x hx.2]
    rw [if_neg hx.1]

theorem statusFold_mem (fs : List CommitFile) :
    ∀ (m : String → Option FileStatus) (f : CommitFile), f ∈ fs →
      (fs.map (fun g => g.newPath)).Nodup →
      (fs.foldl (fun m f => fun x =>
        if x = f.newPath then some (statusFromChar f.code.data.head?) else m x) m) f.newPath
        = some (statusFromChar f.code.data.head?) := by
  induction fs with
  | nil => intro m f h; cases h
  | cons g rest ih =>
    intro m f hmem hnd
    simp only [List.map_cons, List.nodup_cons] at hnd
    rw [List.foldl_cons]
    rcases List.mem_cons.mp hmem with rfl | hmem'
    · rw [statusFold_notmem rest _ f.newPath hnd.1]
      rw [if_pos rfl]
    · exact ih _ f hmem' hnd.2

theorem statusMapOf_lookup (fs : List CommitFile) (f : CommitFile) (hf : f ∈ fs)
    (hnd : (fs.map (fun g => g.newPath)).Nodup) :
    statusMapOf fs f.newPath = some (statusFromChar f.code.data.head?) :=
  statusFold_mem fs (fun _ => none) f hf hnd

theorem entryChangedLines_zero (f : CommitFile)
    (h : ∀ hb ∈ f.hunks, hb.info.newCount = some 0) : entryChangedLines f = [] := by
  unfold entryChangedLines
  apply List.eq_nil_iff_forall_not_mem.mpr
  intro x hx
  rw [List.mem_flatMap] at hx
  obtain ⟨hb, hhb, hxl⟩ := hx
  unfold hunkNewLines at hxl
  rw [h hb hhb] at hxl
  simp at hxl

theorem entryChangedLines_nil (f : CommitFile) (h : f.hunks = []) :
    entryChangedLines f = [] := by
  simp [entryChangedLines, h]

theorem entryChangedLines_added (f : CommitFile) (n : Nat)
    (h : f.hunks.map (fun hb => hb.info) = [ ⟨0, some 0, 1, some n⟩ ]) :
    entryChangedLines f = (List.range n).map (fun i => 1 + i) := by
  unfold entryChangedLines
  cases hk : f.hunks with
  | nil => rw [hk] at h; cases h
  | cons hb rest =>
    rw [hk] at h
    cases rest with
    | nil =>
      have hi : hb.info = ⟨0, some 0, 1, some n⟩ := by simpa using h
      simp [hunkNewLines, hi]
    | cons hb2 rest2 => simp at h

/-- C5 (amended): over well-formed rendered git output, `getChangedFiles`
assigns each file its name-status code's status and the union of its hunks'
new-file line ranges.  Hence `changedLines` is empty for DELETED files
(whose hunks all carry `newCount = 0`) and for RENAMED files without
content change (no hunks at all) — but an ADDED file gets the full range
`[1, N]` of its inserted lines, not the empty set. -/
theorem claim_c5 (fs : List CommitFile) (hwf : ∀ f ∈ fs, goodEntry f)
    (hnd : (fs.map (fun g => g.newPath)).Nodup) :
    (getChangedFiles (renderRawDiff fs) (renderNameStatus fs)
      = fs.map (fun f => ⟨f.newPath, ((statusMapOf fs) f.newPath).getD FileStatus.MODIFIED,
          entryChangedLines f⟩))
    ∧ (∀ f ∈ fs, (∀ hb ∈ f.hunks, hb.info.newCount = some 0) →
        ∃ fd ∈ getChangedFiles (renderRawDiff fs) (renderNameStatus fs),
          fd.path = f.newPath ∧ fd.status = statusFromChar f.code.data.head?
            ∧ fd.changedLines = [])
    ∧ (∀ f ∈ fs, f.hunks = [] →
        ∃ fd ∈ getChangedFiles (renderRawDiff fs) (renderNameStatus fs),
          fd.path = f.newPath ∧ fd.status = statusFromChar f.code.data.head?
            ∧ fd.changedLines = [])
    ∧ (∀ f ∈ fs, ∀ (n : Nat), f.hunks.map (fun hb => hb.info) = [ ⟨0, some 0, 1, some n⟩ ] →
        ∃ fd ∈ getChangedFiles (renderRawDiff fs) (renderNameStatus fs),
          fd.path = f.newPath ∧ fd.status = statusFromChar f.code.data.head?
            ∧ fd.changedLines = (List.range n).map (fun i => 1 + i)) := by
  have hchar := getChangedFiles_render fs hwf
  have hstat : ∀ f ∈ fs, ((statusMapOf fs) f.newPath).getD FileStatus.MODIFIED
      = statusFromChar f.code.data.head? := by
    intro f hf
    rw [statusMapOf_lookup fs f hf hnd]
    rfl
  refine ⟨hchar, ?_, ?_, ?_⟩
  · intro f hf hcond
    refine ⟨⟨f.newPath, ((statusMapOf fs) f.newPath).getD FileStatus.MODIFIED,
      entryChangedLines f⟩, ?_, rfl, hstat f hf, entryChangedLines_zero f hcond⟩
    rw [hchar]
    exact List.mem_map.mpr ⟨f, hf, rfl⟩
  · intro f hf hcond
    refine ⟨⟨f.newPath, ((statusMapOf fs) f.newPath).getD FileStatus.MODIFIED,
      entryChangedLines f⟩, ?_, rfl, hstat f hf, entryChangedLines_nil f hcond⟩
    rw [hchar]
    exact List.mem_map.mpr ⟨f, hf, rfl⟩
  · intro f hf n hcond
    refine ⟨⟨f.newPath, ((statusMapOf fs) f.newPath).getD FileStatus.MODIFIED,
      entryChangedLines f⟩, ?_, rfl, hstat f hf, entryChangedLines_added f n hcond⟩
    rw [hchar]
    exact List.mem_map.mpr ⟨f, hf, rfl⟩

/-- Counterexample to C5 as stated: on the real `git show` output of a
commit that adds a two-line file, `getChangedFiles` reports the ADDED file
with changedLines `[1, 2]`, not the empty set claimed by the
specification. -/
theorem claim_c5_counterexample :
    ∃ fd ∈ getChangedFiles ("diff --git a/n.ts b/n.ts\n@@ -0,0 +1,2 @@\n+a\n+b")
        ("A\tn.ts"),
      fd.status = FileStatus.ADDED ∧ fd.changedLines ≠ [] := by
  decide

/-- Witness for C5's amended statement: a deleted three-line file (one
`-1,3 +0,0` hunk) and a pure rename (no hunks) both come out with empty
changedLines and their proper statuses. -/
theorem claim_c5_witness :
    (∃ fd ∈ getChangedFiles (renderRawDiff [ ⟨"x.ts", "x.ts", "D", [], [ ⟨⟨1, some 3, 0, some 0⟩, [ [ '-', 'a' ], [ '-', 'b' ], [ '-', 'c' ] ]⟩ ]⟩, ⟨"o.ts", "p.ts", "R100", [], []⟩ ])
        (renderNameStatus [ ⟨"x.ts", "x.ts", "D", [], [ ⟨⟨1, some 3, 0, some 0⟩, [ [ '-', 'a' ], [ '-', 'b' ], [ '-', 'c' ] ]⟩ ]⟩, ⟨"o.ts", "p.ts", "R100", [], []⟩ ]),
      fd.path = "x.ts" ∧ fd.status = statusFromChar (("D" : String).data.head?)
        ∧ fd.changedLines = [])
    ∧ (∃ fd ∈ getChangedFiles (renderRawDiff [ ⟨"x.ts", "x.ts", "D", [], [ ⟨⟨1, some 3, 0, some 0⟩, [ [ '-', 'a' ], [ '-', 'b' ], [ '-', 'c' ] ]⟩ ]⟩, ⟨"o.ts", "p.ts", "R100", [], []⟩ ])
        (renderNameStatus [ ⟨"x.ts", "x.ts", "D", [], [ ⟨⟨1, some 3, 0, some 0⟩, [ [ '-', 'a' ], [ '-', 'b' ], [ '-', 'c' ] ]⟩ ]⟩, ⟨"o.ts", "p.ts", "R100", [], []⟩ ]),
      fd.path = "p.ts" ∧ fd.status = statusFromChar (("R100" : String).data.head?)
        ∧ fd.changedLines = []) := by
  have h := claim_c5 [ ⟨"x.ts", "x.ts", "D", [], [ ⟨⟨1, some 3, 0, some 0⟩, [ [ '-', 'a' ], [ '-', 'b' ], [ '-', 'c' ] ]⟩ ]⟩, ⟨"o.ts", "p.ts", "R100", [], []⟩ ] (by decide) (by decide)
  exact ⟨h.2.1 ⟨"x.ts", "x.ts", "D", [], [ ⟨⟨1, some 3, 0, some 0⟩, [ [ '-', 'a' ], [ '-', 'b' ], [ '-', 'c' ] ]⟩ ]⟩ (by decide) (by decide), h.2.2.1 ⟨"o.ts", "p.ts", "R100", [], []⟩ (by decide) rfl⟩

end TestSelector
